import Mathlib

/-!
Verification of the gerbst binary search tree library.

The repository contains two variants of the tree:

* the per-node-locking variant (`gerbst.go`): a `Node` struct holding
  `key`, `value`, `depth`, `side` and `left`/`right` child pointers, with
  `New`, `NewWithKeys`, `Put`/`put` and `DeepestNode`/`deepestNode`;
* the whole-tree-locking wrapper (`locking.go` plus the `treeNode` file):
  a plain exported `Node` record (`key`, `value`, `depth`, `side`), an
  internal `treeNode` carrying child pointers plus aggregate metadata
  (`loKey`, `hiKey`, `count`, `countLeft`, `countRight`, `depthMax`,
  `depthMaxLeft`, `depthMaxRight`), and a `LockingTree` owning the root.

Go pointers to nodes are embedded as an inductive type with an explicit
`nil` constructor; Go `interface{}` values are embedded as `Option Nat`
(`none` = Go `nil`); Go `uint` keys are embedded as `Nat` (no arithmetic
is ever performed on keys or counters that could overflow in practice,
only comparisons, `+1` increments and field copies, so `Nat` is faithful).
Mutation is embedded by returning the updated tree; the `parent` back
pointers of the Go code, used only to propagate metadata upward after an
insertion, are embedded by propagating the new node's `(depth, key)` pair
back up the recursive insertion call, which visits exactly the ancestor
chain that `updateMeta` walks.  Mutexes and goroutines are dropped: all
claims under study are about the sequential functional behaviour.
-/

/-- `NodeSide` of gerbst: position of a node relative to its parent. -/
inductive NodeSide where
  | root
  | left
  | right
deriving DecidableEq, Repr

/-- Go `interface{}` payloads: `none` is Go `nil`, numeric payloads are `Nat`. -/
abbrev GoVal := Option Nat

/-! ## Per-node-locking variant (`gerbst.go`) -/

/-- `*Node` of `gerbst.go`: either the Go `nil` pointer or a node with
`key`, `value`, `depth`, `side` and the two child pointers. -/
inductive Node where
  | nil : Node
  | mk (key : Nat) (value : GoVal) (depth : Nat) (side : NodeSide)
      (left : Node) (right : Node) : Node
deriving DecidableEq, Repr

/-- `newNode` of `gerbst.go`: fresh node with no children. -/
def newNode (key : Nat) (value : GoVal) (depth : Nat) (side : NodeSide) : Node :=
  Node.mk key value depth side Node.nil Node.nil

/-- `New` of `gerbst.go`: root constructor; a `nil` value defaults to the key. -/
def New (key : Nat) (value : GoVal) : Node :=
  let v : GoVal :=
    match value with
    | none => some key
    | some w => some w
  newNode key v 0 NodeSide.root

/-- `Node.put` of `gerbst.go` (lower-case method): descend left on
smaller keys and right on larger ones, attaching a fresh node with
`depth+1` at the first absent slot; an equal key falls through both
comparisons and changes nothing. -/
def Node.put : Node → Nat → GoVal → Node
  | Node.nil, _, _ => Node.nil
  | Node.mk k v d s l r, key, value =>
    if k > key then
      match l with
      | Node.nil => Node.mk k v d s (newNode key value (d + 1) NodeSide.left) r
      | _ => Node.mk k v d s (Node.put l key value) r
    else if k < key then
      match r with
      | Node.nil => Node.mk k v d s l (newNode key value (d + 1) NodeSide.right)
      | _ => Node.mk k v d s l (Node.put r key value)
    else
      Node.mk k v d s l r

/-- `Node.Put` of `gerbst.go`: the exported wrapper declares `var v
interface{}` and assigns `v = key` only when `value == nil`, with no
`else` branch, so a non-nil `value` argument is dropped and `nil` is
passed down to `put`. -/
def Node.Put (n : Node) (key : Nat) (value : GoVal) : Node :=
  let v : GoVal :=
    match value with
    | none => some key
    | some _ => none
  Node.put n key v

/-- `NewWithKeys` of `gerbst.go`: an empty list yields `New(0, nil)`;
otherwise the first key seeds the root and the rest are inserted via
`put` with the key as value. -/
def NewWithKeys (keys : List Nat) : Node :=
  match keys with
  | [] => New 0 none
  | k :: ks => ks.foldl (fun n k2 => Node.put n k2 (some k2)) (New k none)

/-- Whether a `*Node` is the Go `nil` pointer. -/
def Node.isNil : Node → Bool
  | Node.nil => true
  | _ => false

/-- The `depth` field of a node (`0` on `nil`, which Go never dereferences). -/
def Node.depthOf : Node → Nat
  | Node.nil => 0
  | Node.mk _ _ d _ _ _ => d

/-- `Node.deepestNode` of `gerbst.go`: a leaf returns itself; otherwise
take the deepest node of each existing child subtree and return the left
one only when it is strictly deeper, the right one otherwise. -/
def Node.deepestNode : Node → Node
  | Node.nil => Node.nil
  | Node.mk k v d s l r =>
    if l.isNil && r.isNil then
      Node.mk k v d s l r
    else
      let ln : Node := match l with | Node.nil => Node.nil | _ => Node.deepestNode l
      let rn : Node := match r with | Node.nil => Node.nil | _ => Node.deepestNode r
      if rn.isNil then ln
      else if ln.isNil then rn
      else if ln.depthOf > rn.depthOf then ln
      else rn

/-! Observation functions on the per-node variant (in-order traversals
and recursively-defined invariants, used to state the claims). -/

/-- In-order list of keys of a per-node tree. -/
def Node.keysb : Node → List Nat
  | Node.nil => []
  | Node.mk k _ _ _ l r => Node.keysb l ++ k :: Node.keysb r

/-- In-order list of (key, value) pairs of a per-node tree. -/
def Node.kvs : Node → List (Nat × GoVal)
  | Node.nil => []
  | Node.mk k v _ _ l r => Node.kvs l ++ (k, v) :: Node.kvs r

/-- The binary-search ordering invariant, at every node of the tree. -/
def Node.isBST : Node → Bool
  | Node.nil => true
  | Node.mk k _ _ _ l r =>
    (Node.keysb l).all (fun x => x < k) && (Node.keysb r).all (fun x => k < x)
      && Node.isBST l && Node.isBST r

/-- Every node's `depth` field is its distance from the root: the tree's
root stores `d` and each child stores its parent's depth plus one. -/
def Node.depthsOK : Nat → Node → Bool
  | _, Node.nil => true
  | d, Node.mk _ _ d2 _ l r =>
    d2 == d && Node.depthsOK (d + 1) l && Node.depthsOK (d + 1) r

/-- All subtree-rooted nodes of a tree (the tree's nodes, each carrying
its subtree), in pre-order. -/
def Node.nodesList : Node → List Node
  | Node.nil => []
  | Node.mk k v d s l r =>
    Node.mk k v d s l r :: (Node.nodesList l ++ Node.nodesList r)

/-- Folding a list of `(key, value)` put operations over a per-node tree. -/
def Node.applyPuts (t : Node) (ops : List (Nat × GoVal)) : Node :=
  ops.foldl (fun n p => Node.put n p.1 p.2) t

/-! ## Whole-tree-locking wrapper variant (`locking.go` + the `treeNode` file) -/

/-- The plain exported `Node` record of the wrapper variant's node file:
`key`, `value`, `depth`, `side` and nothing else. -/
structure PNode where
  key : Nat
  value : GoVal
  depth : Nat
  side : NodeSide
deriving DecidableEq, Repr

/-- The aggregate metadata fields of `treeNode`. -/
structure Meta where
  loKey : Nat
  hiKey : Nat
  count : Nat
  countLeft : Nat
  countRight : Nat
  depthMax : Nat
  depthMaxLeft : Nat
  depthMaxRight : Nat
deriving DecidableEq, Repr

/-- `*treeNode`: the Go `nil` pointer or a node embedding a plain `Node`
record, its metadata and the two child pointers.  The Go `parent` back
pointer is not stored: it is determined by the position in the tree and
is only used by `updateMeta`, whose upward walk is embedded in the put
functions below. -/
inductive TreeNode where
  | nil : TreeNode
  | mk (node : PNode) (m : Meta) (left : TreeNode) (right : TreeNode) : TreeNode
deriving DecidableEq, Repr

/-- `newTreeNode`: fresh childless node with `count = 1`,
`depthMax = depth` and both key bounds equal to its own key. -/
def newTreeNode (key : Nat) (value : GoVal) (depth : Nat) (side : NodeSide) : TreeNode :=
  TreeNode.mk ⟨key, value, depth, side⟩
    { loKey := key, hiKey := key, count := 1, countLeft := 0, countRight := 0,
      depthMax := depth, depthMaxLeft := 0, depthMaxRight := 0 }
    TreeNode.nil TreeNode.nil

/-- Whether a `*treeNode` is the Go `nil` pointer. -/
def TreeNode.isNil : TreeNode → Bool
  | TreeNode.nil => true
  | _ => false

/-- The stored `side` field of a tree node (`root` on `nil`, never read there). -/
def TreeNode.sideOf : TreeNode → NodeSide
  | TreeNode.nil => NodeSide.root
  | TreeNode.mk n _ _ _ => n.side

/-- The stored `depth` field of a tree node (`0` on `nil`, never read there). -/
def TreeNode.depthOf : TreeNode → Nat
  | TreeNode.nil => 0
  | TreeNode.mk n _ _ _ => n.depth

/-- One iteration of `updateMeta`'s ancestor walk, executed at an
ancestor whose metadata is `m` when the walk arrives from a child whose
stored side is `childSide` and the newly inserted node has depth
`srcDepth` and key `srcKey`: bump `count`, bump the side-specific count
and side-specific max depth, raise `depthMax`, and widen `loKey` or
(else) `hiKey`. -/
def updateMetaStep (m : Meta) (childSide : NodeSide) (srcDepth srcKey : Nat) : Meta :=
  let m1 : Meta := { m with count := m.count + 1 }
  let m2 : Meta :=
    match childSide with
    | NodeSide.left =>
      { m1 with countLeft := m1.countLeft + 1,
                depthMaxLeft :=
                  if m1.depthMaxLeft < srcDepth then srcDepth else m1.depthMaxLeft }
    | NodeSide.right =>
      { m1 with countRight := m1.countRight + 1,
                depthMaxRight :=
                  if m1.depthMaxRight < srcDepth then srcDepth else m1.depthMaxRight }
    | NodeSide.root => m1
  let m3 : Meta :=
    { m2 with depthMax := if m2.depthMax < srcDepth then srcDepth else m2.depthMax }
  if m3.loKey > srcKey then { m3 with loKey := srcKey }
  else if m3.hiKey < srcKey then { m3 with hiKey := srcKey }
  else m3

/-- Rebuild a node around an updated left child: when the recursive
insertion below reports a newly created node `(srcDepth, srcKey)`, run
the `updateMeta` step for this ancestor (the walk arrives from the left
child, whose stored side is read exactly as `updateMeta` reads
`local.side`); otherwise keep the metadata untouched. -/
def attachLeft (n : PNode) (m : Meta) (r : TreeNode) :
    TreeNode × Option (Nat × Nat) → TreeNode × Option (Nat × Nat)
  | (l2, none) => (TreeNode.mk n m l2 r, none)
  | (l2, some (sd, sk)) =>
    (TreeNode.mk n (updateMetaStep m (TreeNode.sideOf l2) sd sk) l2 r, some (sd, sk))

/-- Rebuild a node around an updated right child; see `attachLeft`. -/
def attachRight (n : PNode) (m : Meta) (l : TreeNode) :
    TreeNode × Option (Nat × Nat) → TreeNode × Option (Nat × Nat)
  | (r2, none) => (TreeNode.mk n m l r2, none)
  | (r2, some (sd, sk)) =>
    (TreeNode.mk n (updateMetaStep m (TreeNode.sideOf r2) sd sk) l r2, some (sd, sk))

/-- `treeNode.Put` (the iterative walk), with `rd`/`rs` the `depth` and
`side` fields of the receiver `tn` on which `Put` was invoked: a node
whose key matches has its embedded `Node` record replaced by
`newNode(key, value, tn.depth, tn.side)` — the receiver's depth and
side, exactly as the Go source writes it — and no metadata is touched;
otherwise the walk descends (left on smaller key, right otherwise),
attaches `newTreeNode(key, value, n.depth+1, side)` at the first absent
slot and runs `updateMeta` from the new node, embedded here as the
`(depth, key)` pair returned through `attachLeft`/`attachRight` on the
ancestor chain. -/
def TreeNode.putLoop (rd : Nat) (rs : NodeSide) (key : Nat) (value : GoVal) :
    TreeNode → TreeNode × Option (Nat × Nat)
  | TreeNode.nil => (TreeNode.nil, none)
  | TreeNode.mk n m l r =>
    if n.key = key then
      (TreeNode.mk ⟨key, value, rd, rs⟩ m l r, none)
    else if n.key > key then
      match l with
      | TreeNode.nil =>
        (TreeNode.mk n (updateMetaStep m NodeSide.left (n.depth + 1) key)
          (newTreeNode key value (n.depth + 1) NodeSide.left) r,
         some (n.depth + 1, key))
      | _ => attachLeft n m r (TreeNode.putLoop rd rs key value l)
    else
      match r with
      | TreeNode.nil =>
        (TreeNode.mk n (updateMetaStep m NodeSide.right (n.depth + 1) key) l
          (newTreeNode key value (n.depth + 1) NodeSide.right),
         some (n.depth + 1, key))
      | _ => attachRight n m l (TreeNode.putLoop rd rs key value r)

/-- `treeNode.Put`: run the iterative walk with the receiver's own
`depth` and `side` captured for the overwrite branch. -/
def TreeNode.Put (t : TreeNode) (key : Nat) (value : GoVal) : TreeNode :=
  (TreeNode.putLoop (TreeNode.depthOf t) (TreeNode.sideOf t) key value t).1

/-- `treeNode.PutRecurse`: same descent, but the overwrite branch runs
at the matching node itself, so the replacement `Node` record keeps that
node's own `depth` and `side`. -/
def TreeNode.putRecLoop (key : Nat) (value : GoVal) :
    TreeNode → TreeNode × Option (Nat × Nat)
  | TreeNode.nil => (TreeNode.nil, none)
  | TreeNode.mk n m l r =>
    if n.key = key then
      (TreeNode.mk ⟨key, value, n.depth, n.side⟩ m l r, none)
    else if n.key > key then
      match l with
      | TreeNode.nil =>
        (TreeNode.mk n (updateMetaStep m NodeSide.left (n.depth + 1) key)
          (newTreeNode key value (n.depth + 1) NodeSide.left) r,
         some (n.depth + 1, key))
      | _ => attachLeft n m r (TreeNode.putRecLoop key value l)
    else
      match r with
      | TreeNode.nil =>
        (TreeNode.mk n (updateMetaStep m NodeSide.right (n.depth + 1) key) l
          (newTreeNode key value (n.depth + 1) NodeSide.right),
         some (n.depth + 1, key))
      | _ => attachRight n m l (TreeNode.putRecLoop key value r)

/-- `treeNode.PutRecurse`, top level. -/
def TreeNode.PutRecurse (t : TreeNode) (key : Nat) (value : GoVal) : TreeNode :=
  (TreeNode.putRecLoop key value t).1

/-- `treeNode.Get` (iterative walk): stop on a key match returning the
embedded `Node` record; descend only while a matching-direction child
exists; otherwise report not-found. -/
def TreeNode.Get : TreeNode → Nat → Option PNode
  | TreeNode.nil, _ => none
  | TreeNode.mk n _ l r, key =>
    if n.key = key then some n
    else if n.key > key ∧ l ≠ TreeNode.nil then TreeNode.Get l key
    else if n.key < key ∧ r ≠ TreeNode.nil then TreeNode.Get r key
    else none

/-- `treeNode.GetRecurse`: same conditions; a failed recursive call
falls through to the final not-found return. -/
def TreeNode.GetRecurse : TreeNode → Nat → Option PNode
  | TreeNode.nil, _ => none
  | TreeNode.mk n _ l r, key =>
    if n.key = key then some n
    else if n.key > key ∧ l ≠ TreeNode.nil then
      match TreeNode.GetRecurse l key with
      | some ln => some ln
      | none => none
    else if n.key < key ∧ r ≠ TreeNode.nil then
      match TreeNode.GetRecurse r key with
      | some rn => some rn
      | none => none
    else none

/-- `LockingTree` of `locking.go`: a root pointer (the reader/writer
lock is dropped; every claim is about the sequential behaviour). -/
structure LockingTree where
  root : TreeNode
deriving DecidableEq, Repr

/-- `NewLockingTree`: zero value, `nil` root. -/
def NewLockingTree : LockingTree := { root := TreeNode.nil }

/-- `LockingTree.put`: seed the root at depth `1` and side `ROOT` when
the tree is empty, else delegate to `Put` or `PutRecurse` on the root. -/
def LockingTree.put (lt : LockingTree) (key : Nat) (value : GoVal) (recurse : Bool) :
    LockingTree :=
  match lt.root with
  | TreeNode.nil => { root := newTreeNode key value 1 NodeSide.root }
  | t =>
    if recurse then { root := TreeNode.PutRecurse t key value }
    else { root := TreeNode.Put t key value }

/-- `LockingTree.Put`. -/
def LockingTree.Put (lt : LockingTree) (key : Nat) (value : GoVal) : LockingTree :=
  lt.put key value false

/-- `LockingTree.PutRecurse`. -/
def LockingTree.PutRecurse (lt : LockingTree) (key : Nat) (value : GoVal) : LockingTree :=
  lt.put key value true

/-- `NewLockingTreeWithKeys`: insert every key via `Put`, value = key. -/
def NewLockingTreeWithKeys (keys : List Nat) : LockingTree :=
  keys.foldl (fun lt k => lt.Put k (some k)) NewLockingTree

/-- `LockingTree.Get`: fast-fail on an empty tree or a key outside the
root's `[loKey, hiKey]` bounds, else run the iterative walk. -/
def LockingTree.Get (lt : LockingTree) (key : Nat) : Option PNode :=
  match lt.root with
  | TreeNode.nil => none
  | TreeNode.mk n m l r =>
    if key < m.loKey ∨ key > m.hiKey then none
    else TreeNode.Get (TreeNode.mk n m l r) key

/-- `LockingTree.GetRecurse`: same fast-fail, recursive walk. -/
def LockingTree.GetRecurse (lt : LockingTree) (key : Nat) : Option PNode :=
  match lt.root with
  | TreeNode.nil => none
  | TreeNode.mk n m l r =>
    if key < m.loKey ∨ key > m.hiKey then none
    else TreeNode.GetRecurse (TreeNode.mk n m l r) key

/-- `LockingTree.Count`: `0` on an empty tree, else the root's `count`. -/
def LockingTree.Count (lt : LockingTree) : Nat :=
  match lt.root with
  | TreeNode.nil => 0
  | TreeNode.mk _ m _ _ => m.count

/-- `LockingTree.CountLeft`. -/
def LockingTree.CountLeft (lt : LockingTree) : Nat :=
  match lt.root with
  | TreeNode.nil => 0
  | TreeNode.mk _ m _ _ => m.countLeft

/-- `LockingTree.CountRight`. -/
def LockingTree.CountRight (lt : LockingTree) : Nat :=
  match lt.root with
  | TreeNode.nil => 0
  | TreeNode.mk _ m _ _ => m.countRight

/-- `LockingTree.LowestKey`. -/
def LockingTree.LowestKey (lt : LockingTree) : Nat :=
  match lt.root with
  | TreeNode.nil => 0
  | TreeNode.mk _ m _ _ => m.loKey

/-- `LockingTree.HighestKey`. -/
def LockingTree.HighestKey (lt : LockingTree) : Nat :=
  match lt.root with
  | TreeNode.nil => 0
  | TreeNode.mk _ m _ _ => m.hiKey

/-- `LockingTree.DepthMax`. -/
def LockingTree.DepthMax (lt : LockingTree) : Nat :=
  match lt.root with
  | TreeNode.nil => 0
  | TreeNode.mk _ m _ _ => m.depthMax

/-- `LockingTree.DepthMaxLeft`. -/
def LockingTree.DepthMaxLeft (lt : LockingTree) : Nat :=
  match lt.root with
  | TreeNode.nil => 0
  | TreeNode.mk _ m _ _ => m.depthMaxLeft

/-- `LockingTree.DepthMaxRight`. -/
def LockingTree.DepthMaxRight (lt : LockingTree) : Nat :=
  match lt.root with
  | TreeNode.nil => 0
  | TreeNode.mk _ m _ _ => m.depthMaxRight

/-! ## Helper lemmas shared between claims -/

/-- A sorted-split list `kl ++ k :: kr` with `kl < k < kr` and nodup
halves has no duplicates. -/
theorem nodup_mid (kl kr : List Nat) (k : Nat)
    (hl : ∀ x ∈ kl, x < k) (hr : ∀ x ∈ kr, k < x)
    (nl : kl.Nodup) (nr : kr.Nodup) : (kl ++ k :: kr).Nodup := by
  refine List.Nodup.append nl (List.nodup_cons.mpr ⟨?_, nr⟩) ?_
  · intro hk
    exact absurd (hr k hk) (lt_irrefl k)
  · intro x hx hx2
    rcases List.mem_cons.mp hx2 with h | h
    · subst h
      exact absurd (hl x hx) (lt_irrefl x)
    · exact absurd ((hl x hx).trans (hr x h)) (lt_irrefl x)

/-- Keys after a per-node `put` come from the old tree or are the new key. -/
theorem Node.mem_keysb_put (key x : Nat) (v : GoVal) :
    ∀ t : Node, x ∈ (Node.put t key v).keysb → x ∈ t.keysb ∨ x = key := by
  intro t
  induction t with
  | nil =>
    intro hx
    simp [Node.put, Node.keysb] at hx
  | mk k val d s l r ihl ihr =>
    intro hx
    by_cases h1 : k > key
    · cases l with
      | nil =>
        simp only [Node.put, if_pos h1] at hx
        simp only [Node.keysb, newNode, List.mem_append, List.mem_cons,
          List.not_mem_nil, or_false, List.mem_singleton] at hx ⊢
        tauto
      | mk lk lv ld ls ll lr =>
        simp only [Node.put, if_pos h1] at hx
        simp only [Node.keysb, List.mem_append, List.mem_cons] at hx ⊢
        rcases hx with h | h
        · rcases ihl h with h2 | h2
          · refine Or.inl (Or.inl ?_)
            simpa [Node.keysb] using h2
          · exact Or.inr h2
        · exact Or.inl (Or.inr h)
    · by_cases h2 : k < key
      · cases r with
        | nil =>
          simp only [Node.put, if_neg h1, if_pos h2] at hx
          simp only [Node.keysb, newNode, List.mem_append, List.mem_cons,
            List.not_mem_nil, or_false, List.mem_singleton] at hx ⊢
          tauto
        | mk rk rv rd2 rs rl rr =>
          simp only [Node.put, if_neg h1, if_pos h2] at hx
          simp only [Node.keysb, List.mem_append, List.mem_cons] at hx ⊢
          rcases hx with h | h
          · exact Or.inl (Or.inl h)
          · rcases h with h | h
            · exact Or.inl (Or.inr (Or.inl h))
            · rcases ihr h with h3 | h3
              · refine Or.inl (Or.inr (Or.inr ?_))
                simpa [Node.keysb] using h3
              · exact Or.inr h3
      · simp only [Node.put, if_neg h1, if_neg h2] at hx
        exact Or.inl hx

/-- Per-node `put` preserves the binary-search ordering invariant. -/
theorem Node.isBST_put (key : Nat) (v : GoVal) :
    ∀ t : Node, t.isBST = true → (Node.put t key v).isBST = true := by
  intro t
  induction t with
  | nil =>
    intro h
    simpa [Node.put] using h
  | mk k val d s l r ihl ihr =>
    intro h
    simp only [Node.isBST, Bool.and_eq_true, List.all_eq_true, decide_eq_true_eq] at h
    obtain ⟨⟨⟨hla, hra⟩, hbl⟩, hbr⟩ := h
    by_cases h1 : k > key
    · cases l with
      | nil =>
        simp only [Node.put, if_pos h1]
        simp only [Node.isBST, newNode, Node.keysb, Bool.and_eq_true, List.all_eq_true,
          decide_eq_true_eq]
        refine ⟨⟨⟨?_, hra⟩, by simp [Node.isBST]⟩, hbr⟩
        intro x hx
        simp only [List.nil_append, List.mem_cons, List.not_mem_nil, or_false] at hx
        subst hx
        exact h1
      | mk lk lv ld ls ll lr =>
        simp only [Node.put, if_pos h1]
        simp only [Node.isBST, Bool.and_eq_true, List.all_eq_true, decide_eq_true_eq]
        refine ⟨⟨⟨?_, hra⟩, ihl hbl⟩, hbr⟩
        intro x hx
        rcases Node.mem_keysb_put key x v (Node.mk lk lv ld ls ll lr) (by exact hx)
          with h2 | h2
        · exact hla x h2
        · subst h2; exact h1
    · by_cases h2 : k < key
      · cases r with
        | nil =>
          simp only [Node.put, if_neg h1, if_pos h2]
          simp only [Node.isBST, newNode, Node.keysb, Bool.and_eq_true, List.all_eq_true,
            decide_eq_true_eq]
          refine ⟨⟨⟨hla, ?_⟩, hbl⟩, by simp [Node.isBST]⟩
          intro x hx
          simp only [List.nil_append, List.mem_cons, List.not_mem_nil, or_false] at hx
          subst hx
          exact h2
        | mk rk rv rd2 rs rl rr =>
          simp only [Node.put, if_neg h1, if_pos h2]
          simp only [Node.isBST, Bool.and_eq_true, List.all_eq_true, decide_eq_true_eq]
          refine ⟨⟨⟨hla, ?_⟩, hbl⟩, ihr hbr⟩
          intro x hx
          rcases Node.mem_keysb_put key x v (Node.mk rk rv rd2 rs rl rr) (by exact hx)
            with h3 | h3
          · exact hra x h3
          · subst h3; exact h2
      · simp only [Node.put, if_neg h1, if_neg h2]
        simp only [Node.isBST, Bool.and_eq_true, List.all_eq_true, decide_eq_true_eq]
        exact ⟨⟨⟨hla, hra⟩, hbl⟩, hbr⟩

/-- A tree satisfying the ordering invariant has pairwise distinct keys. -/
theorem Node.isBST_nodup : ∀ t : Node, t.isBST = true → t.keysb.Nodup := by
  intro t
  induction t with
  | nil =>
    intro _
    simp [Node.keysb]
  | mk k val d s l r ihl ihr =>
    intro h
    simp only [Node.isBST, Bool.and_eq_true, List.all_eq_true, decide_eq_true_eq] at h
    obtain ⟨⟨⟨hla, hra⟩, hbl⟩, hbr⟩ := h
    simp only [Node.keysb]
    exact nodup_mid _ _ _ hla hra (ihl hbl) (ihr hbr)

/-- Per-node `put` preserves correct depth fields. -/
theorem Node.depthsOK_put (key : Nat) (v : GoVal) :
    ∀ (t : Node) (d : Nat), Node.depthsOK d t = true →
      Node.depthsOK d (Node.put t key v) = true := by
  intro t
  induction t with
  | nil =>
    intro d h
    simpa [Node.put] using h
  | mk k val d2 s l r ihl ihr =>
    intro d h
    simp only [Node.depthsOK, Bool.and_eq_true, beq_iff_eq] at h
    obtain ⟨⟨hd, hl⟩, hr⟩ := h
    subst hd
    by_cases h1 : k > key
    · cases l with
      | nil =>
        simp only [Node.put, if_pos h1]
        simp [Node.depthsOK, newNode, hr]
      | mk lk lv ld ls ll lr =>
        simp only [Node.put, if_pos h1]
        simp only [Node.depthsOK, Bool.and_eq_true, beq_iff_eq]
        exact ⟨⟨trivial, ihl _ hl⟩, hr⟩
    · by_cases h2 : k < key
      · cases r with
        | nil =>
          simp only [Node.put, if_neg h1, if_pos h2]
          simp [Node.depthsOK, newNode, hl]
        | mk rk rv rd2 rs rl rr =>
          simp only [Node.put, if_neg h1, if_pos h2]
          simp only [Node.depthsOK, Bool.and_eq_true, beq_iff_eq]
          exact ⟨⟨trivial, hl⟩, ihr _ hr⟩
      · simp only [Node.put, if_neg h1, if_neg h2]
        simp only [Node.depthsOK, Bool.and_eq_true, beq_iff_eq]
        exact ⟨⟨trivial, hl⟩, hr⟩

/-- Folding puts preserves the ordering invariant. -/
theorem Node.isBST_applyPuts :
    ∀ (ops : List (Nat × GoVal)) (t : Node), t.isBST = true →
      (Node.applyPuts t ops).isBST = true := by
  intro ops
  induction ops with
  | nil => intro t h; simpa [Node.applyPuts] using h
  | cons p rest ih =>
    intro t h
    exact ih (Node.put t p.1 p.2) (Node.isBST_put p.1 p.2 t h)

/-- Folding puts preserves correct depth fields. -/
theorem Node.depthsOK_applyPuts :
    ∀ (ops : List (Nat × GoVal)) (t : Node) (d : Nat), Node.depthsOK d t = true →
      Node.depthsOK d (Node.applyPuts t ops) = true := by
  intro ops
  induction ops with
  | nil => intro t d h; simpa [Node.applyPuts] using h
  | cons p rest ih =>
    intro t d h
    exact ih (Node.put t p.1 p.2) d (Node.depthsOK_put p.1 p.2 t d h)

/-- A fresh root is trivially a BST. -/
theorem New_isBST (key : Nat) (value : GoVal) : (New key value).isBST = true := by
  cases value <;> simp [New, newNode, Node.isBST, Node.keysb]

/-- A fresh root has depth `0` and no children. -/
theorem New_depthsOK (key : Nat) (value : GoVal) :
    Node.depthsOK 0 (New key value) = true := by
  cases value <;> simp [New, newNode, Node.depthsOK]

/-! Characterizations of `deepestNode` per child shape (all definitional). -/

/-- A leaf returns itself. -/
theorem Node.deepestNode_leaf (k : Nat) (v : GoVal) (d : Nat) (s : NodeSide) :
    Node.deepestNode (Node.mk k v d s Node.nil Node.nil)
      = Node.mk k v d s Node.nil Node.nil := rfl

/-- With only a left child, the left result is returned. -/
theorem Node.deepestNode_mk_nil (k : Nat) (v : GoVal) (d : Nat) (s : NodeSide)
    (lk : Nat) (lv : GoVal) (ld : Nat) (ls : NodeSide) (ll lr : Node) :
    Node.deepestNode (Node.mk k v d s (Node.mk lk lv ld ls ll lr) Node.nil)
      = Node.deepestNode (Node.mk lk lv ld ls ll lr) := rfl

/-- With only a right child, the right result is returned (after the
`rn == nil` test on the recursive result). -/
theorem Node.deepestNode_nil_mk (k : Nat) (v : GoVal) (d : Nat) (s : NodeSide)
    (rk : Nat) (rv : GoVal) (rd2 : Nat) (rs : NodeSide) (rl rr : Node) :
    Node.deepestNode (Node.mk k v d s Node.nil (Node.mk rk rv rd2 rs rl rr))
      = (if (Node.deepestNode (Node.mk rk rv rd2 rs rl rr)).isNil then Node.nil
         else Node.deepestNode (Node.mk rk rv rd2 rs rl rr)) := rfl

/-- With two children, the strictly deeper result wins and the right one
wins ties. -/
theorem Node.deepestNode_mk_mk (k : Nat) (v : GoVal) (d : Nat) (s : NodeSide)
    (lk : Nat) (lv : GoVal) (ld : Nat) (ls : NodeSide) (ll lr : Node)
    (rk : Nat) (rv : GoVal) (rd2 : Nat) (rs : NodeSide) (rl rr : Node) :
    Node.deepestNode (Node.mk k v d s (Node.mk lk lv ld ls ll lr)
        (Node.mk rk rv rd2 rs rl rr))
      = (let ln := Node.deepestNode (Node.mk lk lv ld ls ll lr)
         let rn := Node.deepestNode (Node.mk rk rv rd2 rs rl rr)
         if rn.isNil then ln
         else if ln.isNil then rn
         else if ln.depthOf > rn.depthOf then ln
         else rn) := rfl

/-- `deepestNode` of a non-nil tree is non-nil. -/
theorem Node.deepestNode_isNil :
    ∀ t : Node, t.isNil = false → (Node.deepestNode t).isNil = false := by
  intro t
  induction t with
  | nil => intro h; simp [Node.isNil] at h
  | mk k v d s l r ihl ihr =>
    intro _
    cases l with
    | nil =>
      cases r with
      | nil => rfl
      | mk rk rv rd2 rs rl rr =>
        rw [Node.deepestNode_nil_mk]
        simp [ihr rfl]
    | mk lk lv ld ls ll lr =>
      cases r with
      | nil =>
        rw [Node.deepestNode_mk_nil]
        exact ihl rfl
      | mk rk rv rd2 rs rl rr =>
        rw [Node.deepestNode_mk_mk]
        simp only [ihl rfl, ihr rfl, Bool.false_eq_true, if_false]
        split <;> [exact ihl rfl; exact ihr rfl]

/-- `deepestNode` of a non-nil tree is one of the tree's nodes. -/
theorem Node.deepestNode_mem :
    ∀ t : Node, t.isNil = false → Node.deepestNode t ∈ t.nodesList := by
  intro t
  induction t with
  | nil => intro h; simp [Node.isNil] at h
  | mk k v d s l r ihl ihr =>
    intro _
    cases l with
    | nil =>
      cases r with
      | nil => simp [Node.deepestNode_leaf, Node.nodesList]
      | mk rk rv rd2 rs rl rr =>
        rw [Node.deepestNode_nil_mk]
        simp only [Node.deepestNode_isNil (Node.mk rk rv rd2 rs rl rr) rfl,
          Bool.false_eq_true, if_false]
        exact List.mem_cons_of_mem _ (List.mem_append_right _ (ihr rfl))
    | mk lk lv ld ls ll lr =>
      cases r with
      | nil =>
        rw [Node.deepestNode_mk_nil]
        exact List.mem_cons_of_mem _ (List.mem_append_left _ (ihl rfl))
      | mk rk rv rd2 rs rl rr =>
        rw [Node.deepestNode_mk_mk]
        simp only [Node.deepestNode_isNil (Node.mk lk lv ld ls ll lr) rfl,
          Node.deepestNode_isNil (Node.mk rk rv rd2 rs rl rr) rfl,
          Bool.false_eq_true, if_false]
        split
        · exact List.mem_cons_of_mem _ (List.mem_append_left _ (ihl rfl))
        · exact List.mem_cons_of_mem _ (List.mem_append_right _ (ihr rfl))

/-- In a tree with correct depth fields rooted at depth `d`, every node
is at depth at least `d`. -/
theorem Node.depthsOK_le :
    ∀ (t : Node) (d : Nat), Node.depthsOK d t = true →
      ∀ m ∈ t.nodesList, d ≤ m.depthOf := by
  intro t
  induction t with
  | nil => intro d _ m hm; simp [Node.nodesList] at hm
  | mk k v d2 s l r ihl ihr =>
    intro d h m hm
    simp only [Node.depthsOK, Bool.and_eq_true, beq_iff_eq] at h
    obtain ⟨⟨hd, hl⟩, hr⟩ := h
    simp only [Node.nodesList, List.mem_cons, List.mem_append] at hm
    rcases hm with hm | hm | hm
    · subst hm
      simp [Node.depthOf, hd]
    · exact Nat.le_of_succ_le (ihl (d + 1) hl m hm)
    · exact Nat.le_of_succ_le (ihr (d + 1) hr m hm)

/-- In a tree with correct depth fields, `deepestNode` returns a node of
maximum stored depth. -/
theorem Node.deepestNode_max :
    ∀ (t : Node) (d : Nat), Node.depthsOK d t = true →
      ∀ m ∈ t.nodesList, m.depthOf ≤ (Node.deepestNode t).depthOf := by
  intro t
  induction t with
  | nil => intro d _ m hm; simp [Node.nodesList] at hm
  | mk k v d2 s l r ihl ihr =>
    intro d h m hm
    simp only [Node.depthsOK, Bool.and_eq_true, beq_iff_eq] at h
    obtain ⟨⟨hd, hl⟩, hr⟩ := h
    simp only [Node.nodesList, List.mem_cons, List.mem_append] at hm
    cases l with
    | nil =>
      cases r with
      | nil =>
        rw [Node.deepestNode_leaf]
        rcases hm with hm | hm | hm
        · subst hm; exact Nat.le_refl _
        · simp [Node.nodesList] at hm
        · simp [Node.nodesList] at hm
      | mk rk rv rd2 rs rl rr =>
        rw [Node.deepestNode_nil_mk]
        simp only [Node.deepestNode_isNil (Node.mk rk rv rd2 rs rl rr) rfl,
          Bool.false_eq_true, if_false]
        have hmem := Node.deepestNode_mem (Node.mk rk rv rd2 rs rl rr) rfl
        have hlow := Node.depthsOK_le (Node.mk rk rv rd2 rs rl rr) (d + 1) hr _ hmem
        rcases hm with hm | hm | hm
        · subst hm
          have hdo : Node.depthOf
              (Node.mk k v d2 s Node.nil (Node.mk rk rv rd2 rs rl rr)) = d2 := rfl
          rw [hdo]
          omega
        · simp [Node.nodesList] at hm
        · exact ihr (d + 1) hr m hm
    | mk lk lv ld ls ll lr =>
      cases r with
      | nil =>
        rw [Node.deepestNode_mk_nil]
        have hmem := Node.deepestNode_mem (Node.mk lk lv ld ls ll lr) rfl
        have hlow := Node.depthsOK_le (Node.mk lk lv ld ls ll lr) (d + 1) hl _ hmem
        rcases hm with hm | hm | hm
        · subst hm
          have hdo : Node.depthOf
              (Node.mk k v d2 s (Node.mk lk lv ld ls ll lr) Node.nil) = d2 := rfl
          rw [hdo]
          omega
        · exact ihl (d + 1) hl m hm
        · simp [Node.nodesList] at hm
      | mk rk rv rd2 rs rl rr =>
        rw [Node.deepestNode_mk_mk]
        simp only [Node.deepestNode_isNil (Node.mk lk lv ld ls ll lr) rfl,
          Node.deepestNode_isNil (Node.mk rk rv rd2 rs rl rr) rfl,
          Bool.false_eq_true, if_false]
        have hmeml := Node.deepestNode_mem (Node.mk lk lv ld ls ll lr) rfl
        have hmemr := Node.deepestNode_mem (Node.mk rk rv rd2 rs rl rr) rfl
        have hlowl := Node.depthsOK_le (Node.mk lk lv ld ls ll lr) (d + 1) hl _ hmeml
        have hlowr := Node.depthsOK_le (Node.mk rk rv rd2 rs rl rr) (d + 1) hr _ hmemr
        have hdo : Node.depthOf (Node.mk k v d2 s (Node.mk lk lv ld ls ll lr)
            (Node.mk rk rv rd2 rs rl rr)) = d2 := rfl
        split
        · rcases hm with hm | hm | hm
          · subst hm; rw [hdo]; omega
          · exact ihl (d + 1) hl m hm
          · have := ihr (d + 1) hr m hm
            omega
        · rcases hm with hm | hm | hm
          · subst hm; rw [hdo]; omega
          · have := ihl (d + 1) hl m hm
            omega
          · exact ihr (d + 1) hr m hm

/-! ## Observation functions on the wrapper variant -/

/-- In-order list of keys of a wrapper tree. -/
def TreeNode.keysb : TreeNode → List Nat
  | TreeNode.nil => []
  | TreeNode.mk n _ l r => TreeNode.keysb l ++ n.key :: TreeNode.keysb r

/-- The binary-search ordering invariant on a wrapper tree. -/
def TreeNode.isBST : TreeNode → Bool
  | TreeNode.nil => true
  | TreeNode.mk n _ l r =>
    (TreeNode.keysb l).all (fun x => x < n.key)
      && (TreeNode.keysb r).all (fun x => n.key < x)
      && TreeNode.isBST l && TreeNode.isBST r

/-- Every stored `depth` equals the node's distance from the tree's
root, offset by the depth `d` stored at this subtree's root. -/
def TreeNode.depthsOK : Nat → TreeNode → Bool
  | _, TreeNode.nil => true
  | d, TreeNode.mk n _ l r =>
    n.depth == d && TreeNode.depthsOK (d + 1) l && TreeNode.depthsOK (d + 1) r

/-- The largest stored `depth` field in a wrapper tree (0 when empty). -/
def TreeNode.maxDepth : TreeNode → Nat
  | TreeNode.nil => 0
  | TreeNode.mk n _ l r =>
    max n.depth (max (TreeNode.maxDepth l) (TreeNode.maxDepth r))

/-- At every node, the stored `depthMax` equals the largest stored
`depth` in its subtree. -/
def TreeNode.dmOK : TreeNode → Bool
  | TreeNode.nil => true
  | TreeNode.mk n m l r =>
    (m.depthMax == max n.depth (max (TreeNode.maxDepth l) (TreeNode.maxDepth r)))
      && TreeNode.dmOK l && TreeNode.dmOK r

/-- Number of edges on the longest root-to-leaf path of a wrapper tree. -/
def TreeNode.heightEdges : TreeNode → Nat
  | TreeNode.nil => 0
  | TreeNode.mk _ _ l r =>
    if l.isNil && r.isNil then 0
    else 1 + max (TreeNode.heightEdges l) (TreeNode.heightEdges r)

/-- One wrapper operation: `(recurse?, key, value)` fed to `LockingTree.put`. -/
abbrev LtOp := Bool × Nat × GoVal

/-- Folding wrapper put operations over a locking tree. -/
def LockingTree.applyOps (lt : LockingTree) (ops : List LtOp) : LockingTree :=
  ops.foldl (fun lt p => lt.put p.2.1 p.2.2 p.1) lt

/-- An operation list is "safe" for a tree when no iterative `Put` in it
ever hits a key already present at that moment (recursive `PutRecurse`
operations and fresh-key iterative ones are unrestricted). -/
def safeOps : LockingTree → List LtOp → Bool
  | _, [] => true
  | lt, (recurse, k, v) :: rest =>
    (recurse || !(decide (k ∈ TreeNode.keysb lt.root)))
      && safeOps (lt.put k v recurse) rest

/-- Folding `(key, value)` pairs with the iterative `Put`. -/
def LockingTree.applyPutsIter (lt : LockingTree) (ops : List (Nat × GoVal)) : LockingTree :=
  ops.foldl (fun lt p => lt.Put p.1 p.2) lt

/-- Folding `(key, value)` pairs with the recursive `PutRecurse`. -/
def LockingTree.applyPutsRec (lt : LockingTree) (ops : List (Nat × GoVal)) : LockingTree :=
  ops.foldl (fun lt p => lt.PutRecurse p.1 p.2) lt

/-! Step characterizations of the two put walks, one per control-flow branch. -/

/-- Overwrite branch of the recursive walk. -/
theorem TreeNode.putRecLoop_eq_here (n : PNode) (m : Meta) (l r : TreeNode)
    (key : Nat) (v : GoVal) (h : n.key = key) :
    TreeNode.putRecLoop key v (TreeNode.mk n m l r)
      = (TreeNode.mk ⟨key, v, n.depth, n.side⟩ m l r, none) := by
  simp [TreeNode.putRecLoop, h]

/-- Left-create branch of the recursive walk. -/
theorem TreeNode.putRecLoop_eq_left_nil (n : PNode) (m : Meta) (r : TreeNode)
    (key : Nat) (v : GoVal) (h1 : ¬ n.key = key) (h2 : n.key > key) :
    TreeNode.putRecLoop key v (TreeNode.mk n m TreeNode.nil r)
      = (TreeNode.mk n (updateMetaStep m NodeSide.left (n.depth + 1) key)
          (newTreeNode key v (n.depth + 1) NodeSide.left) r,
         some (n.depth + 1, key)) := by
  simp [TreeNode.putRecLoop, h1, h2]

/-- Left-descend branch of the recursive walk. -/
theorem TreeNode.putRecLoop_eq_left (n : PNode) (m : Meta) (l r : TreeNode)
    (key : Nat) (v : GoVal) (h1 : ¬ n.key = key) (h2 : n.key > key)
    (hl : l.isNil = false) :
    TreeNode.putRecLoop key v (TreeNode.mk n m l r)
      = attachLeft n m r (TreeNode.putRecLoop key v l) := by
  cases l with
  | nil => simp [TreeNode.isNil] at hl
  | mk ln lm ll lr => simp [TreeNode.putRecLoop, h1, h2]

/-- Right-create branch of the recursive walk. -/
theorem TreeNode.putRecLoop_eq_right_nil (n : PNode) (m : Meta) (l : TreeNode)
    (key : Nat) (v : GoVal) (h1 : ¬ n.key = key) (h2 : ¬ n.key > key) :
    TreeNode.putRecLoop key v (TreeNode.mk n m l TreeNode.nil)
      = (TreeNode.mk n (updateMetaStep m NodeSide.right (n.depth + 1) key) l
          (newTreeNode key v (n.depth + 1) NodeSide.right),
         some (n.depth + 1, key)) := by
  simp [TreeNode.putRecLoop, h1, h2]

/-- Right-descend branch of the recursive walk. -/
theorem TreeNode.putRecLoop_eq_right (n : PNode) (m : Meta) (l r : TreeNode)
    (key : Nat) (v : GoVal) (h1 : ¬ n.key = key) (h2 : ¬ n.key > key)
    (hr : r.isNil = false) :
    TreeNode.putRecLoop key v (TreeNode.mk n m l r)
      = attachRight n m l (TreeNode.putRecLoop key v r) := by
  cases r with
  | nil => simp [TreeNode.isNil] at hr
  | mk rn rm rl rr => simp [TreeNode.putRecLoop, h1, h2]

/-- Overwrite branch of the iterative walk: the replacement record takes
the receiver's depth `rd` and side `rs`. -/
theorem TreeNode.putLoop_eq_here (rd : Nat) (rs : NodeSide) (n : PNode) (m : Meta)
    (l r : TreeNode) (key : Nat) (v : GoVal) (h : n.key = key) :
    TreeNode.putLoop rd rs key v (TreeNode.mk n m l r)
      = (TreeNode.mk ⟨key, v, rd, rs⟩ m l r, none) := by
  simp [TreeNode.putLoop, h]

/-- Left-create branch of the iterative walk. -/
theorem TreeNode.putLoop_eq_left_nil (rd : Nat) (rs : NodeSide) (n : PNode) (m : Meta)
    (r : TreeNode) (key : Nat) (v : GoVal) (h1 : ¬ n.key = key) (h2 : n.key > key) :
    TreeNode.putLoop rd rs key v (TreeNode.mk n m TreeNode.nil r)
      = (TreeNode.mk n (updateMetaStep m NodeSide.left (n.depth + 1) key)
          (newTreeNode key v (n.depth + 1) NodeSide.left) r,
         some (n.depth + 1, key)) := by
  simp [TreeNode.putLoop, h1, h2]

/-- Left-descend branch of the iterative walk. -/
theorem TreeNode.putLoop_eq_left (rd : Nat) (rs : NodeSide) (n : PNode) (m : Meta)
    (l r : TreeNode) (key : Nat) (v : GoVal) (h1 : ¬ n.key = key) (h2 : n.key > key)
    (hl : l.isNil = false) :
    TreeNode.putLoop rd rs key v (TreeNode.mk n m l r)
      = attachLeft n m r (TreeNode.putLoop rd rs key v l) := by
  cases l with
  | nil => simp [TreeNode.isNil] at hl
  | mk ln lm ll lr => simp [TreeNode.putLoop, h1, h2]

/-- Right-create branch of the iterative walk. -/
theorem TreeNode.putLoop_eq_right_nil (rd : Nat) (rs : NodeSide) (n : PNode) (m : Meta)
    (l : TreeNode) (key : Nat) (v : GoVal) (h1 : ¬ n.key = key) (h2 : ¬ n.key > key) :
    TreeNode.putLoop rd rs key v (TreeNode.mk n m l TreeNode.nil)
      = (TreeNode.mk n (updateMetaStep m NodeSide.right (n.depth + 1) key) l
          (newTreeNode key v (n.depth + 1) NodeSide.right),
         some (n.depth + 1, key)) := by
  simp [TreeNode.putLoop, h1, h2]

/-- Right-descend branch of the iterative walk. -/
theorem TreeNode.putLoop_eq_right (rd : Nat) (rs : NodeSide) (n : PNode) (m : Meta)
    (l r : TreeNode) (key : Nat) (v : GoVal) (h1 : ¬ n.key = key) (h2 : ¬ n.key > key)
    (hr : r.isNil = false) :
    TreeNode.putLoop rd rs key v (TreeNode.mk n m l r)
      = attachRight n m l (TreeNode.putLoop rd rs key v r) := by
  cases r with
  | nil => simp [TreeNode.isNil] at hr
  | mk rn rm rl rr => simp [TreeNode.putLoop, h1, h2]

/-- The first component of `attachLeft` keeps the node record and the
right child and plugs in the new left child; only the metadata varies. -/
theorem attachLeft_shape (n : PNode) (m : Meta) (r : TreeNode)
    (p : TreeNode × Option (Nat × Nat)) :
    ∃ m2 : Meta, (attachLeft n m r p).1 = TreeNode.mk n m2 p.1 r := by
  rcases p with ⟨l2, c⟩
  cases c with
  | none => exact ⟨m, rfl⟩
  | some sd =>
    rcases sd with ⟨sd, sk⟩
    exact ⟨updateMetaStep m (TreeNode.sideOf l2) sd sk, rfl⟩

/-- Same statement for `attachRight`. -/
theorem attachRight_shape (n : PNode) (m : Meta) (l : TreeNode)
    (p : TreeNode × Option (Nat × Nat)) :
    ∃ m2 : Meta, (attachRight n m l p).1 = TreeNode.mk n m2 l p.1 := by
  rcases p with ⟨r2, c⟩
  cases c with
  | none => exact ⟨m, rfl⟩
  | some sd =>
    rcases sd with ⟨sd, sk⟩
    exact ⟨updateMetaStep m (TreeNode.sideOf r2) sd sk, rfl⟩

/-- Keys after a recursive wrapper put come from the old tree or are the
new key. -/
theorem TreeNode.mem_keysb_putRecLoop (key x : Nat) (v : GoVal) :
    ∀ t : TreeNode, x ∈ ((TreeNode.putRecLoop key v t).1).keysb →
      x ∈ t.keysb ∨ x = key := by
  intro t
  induction t with
  | nil => intro hx; simp [TreeNode.putRecLoop, TreeNode.keysb] at hx
  | mk n m l r ihl ihr =>
    intro hx
    by_cases h1 : n.key = key
    · rw [TreeNode.putRecLoop_eq_here n m l r key v h1] at hx
      simp only [TreeNode.keysb, List.mem_append, List.mem_cons] at hx ⊢
      tauto
    · by_cases h2 : n.key > key
      · cases l with
        | nil =>
          rw [TreeNode.putRecLoop_eq_left_nil n m r key v h1 h2] at hx
          simp only [TreeNode.keysb, newTreeNode, List.mem_append, List.mem_cons,
            List.not_mem_nil, or_false, List.nil_append] at hx ⊢
          tauto
        | mk ln lm ll lr =>
          rw [TreeNode.putRecLoop_eq_left n m (TreeNode.mk ln lm ll lr) r key v h1 h2 rfl] at hx
          obtain ⟨m2, hshape⟩ :=
            attachLeft_shape n m r (TreeNode.putRecLoop key v (TreeNode.mk ln lm ll lr))
          rw [hshape] at hx
          simp only [TreeNode.keysb, List.mem_append, List.mem_cons] at hx ⊢
          rcases hx with h | h | h
          · rcases ihl h with h3 | h3
            · refine Or.inl (Or.inl ?_)
              simpa [TreeNode.keysb] using h3
            · exact Or.inr h3
          · exact Or.inl (Or.inr (Or.inl h))
          · exact Or.inl (Or.inr (Or.inr h))
      · cases r with
        | nil =>
          rw [TreeNode.putRecLoop_eq_right_nil n m l key v h1 h2] at hx
          simp only [TreeNode.keysb, newTreeNode, List.mem_append, List.mem_cons,
            List.not_mem_nil, or_false, List.nil_append] at hx ⊢
          tauto
        | mk rn rm rl rr =>
          rw [TreeNode.putRecLoop_eq_right n m l (TreeNode.mk rn rm rl rr) key v h1 h2 rfl] at hx
          obtain ⟨m2, hshape⟩ :=
            attachRight_shape n m l (TreeNode.putRecLoop key v (TreeNode.mk rn rm rl rr))
          rw [hshape] at hx
          simp only [TreeNode.keysb, List.mem_append, List.mem_cons] at hx ⊢
          rcases hx with h | h | h
          · exact Or.inl (Or.inl h)
          · exact Or.inl (Or.inr (Or.inl h))
          · rcases ihr h with h3 | h3
            · refine Or.inl (Or.inr (Or.inr ?_))
              simpa [TreeNode.keysb] using h3
            · exact Or.inr h3

/-- Keys after an iterative wrapper put come from the old tree or are
the new key. -/
theorem TreeNode.mem_keysb_putLoop (rd : Nat) (rs : NodeSide) (key x : Nat) (v : GoVal) :
    ∀ t : TreeNode, x ∈ ((TreeNode.putLoop rd rs key v t).1).keysb →
      x ∈ t.keysb ∨ x = key := by
  intro t
  induction t with
  | nil => intro hx; simp [TreeNode.putLoop, TreeNode.keysb] at hx
  | mk n m l r ihl ihr =>
    intro hx
    by_cases h1 : n.key = key
    · rw [TreeNode.putLoop_eq_here rd rs n m l r key v h1] at hx
      simp only [TreeNode.keysb, List.mem_append, List.mem_cons] at hx ⊢
      tauto
    · by_cases h2 : n.key > key
      · cases l with
        | nil =>
          rw [TreeNode.putLoop_eq_left_nil rd rs n m r key v h1 h2] at hx
          simp only [TreeNode.keysb, newTreeNode, List.mem_append, List.mem_cons,
            List.not_mem_nil, or_false, List.nil_append] at hx ⊢
          tauto
        | mk ln lm ll lr =>
          rw [TreeNode.putLoop_eq_left rd rs n m (TreeNode.mk ln lm ll lr) r key v h1 h2 rfl] at hx
          obtain ⟨m2, hshape⟩ :=
            attachLeft_shape n m r (TreeNode.putLoop rd rs key v (TreeNode.mk ln lm ll lr))
          rw [hshape] at hx
          simp only [TreeNode.keysb, List.mem_append, List.mem_cons] at hx ⊢
          rcases hx with h | h | h
          · rcases ihl h with h3 | h3
            · refine Or.inl (Or.inl ?_)
              simpa [TreeNode.keysb] using h3
            · exact Or.inr h3
          · exact Or.inl (Or.inr (Or.inl h))
          · exact Or.inl (Or.inr (Or.inr h))
      · cases r with
        | nil =>
          rw [TreeNode.putLoop_eq_right_nil rd rs n m l key v h1 h2] at hx
          simp only [TreeNode.keysb, newTreeNode, List.mem_append, List.mem_cons,
            List.not_mem_nil, or_false, List.nil_append] at hx ⊢
          tauto
        | mk rn rm rl rr =>
          rw [TreeNode.putLoop_eq_right rd rs n m l (TreeNode.mk rn rm rl rr) key v h1 h2 rfl] at hx
          obtain ⟨m2, hshape⟩ :=
            attachRight_shape n m l (TreeNode.putLoop rd rs key v (TreeNode.mk rn rm rl rr))
          rw [hshape] at hx
          simp only [TreeNode.keysb, List.mem_append, List.mem_cons] at hx ⊢
          rcases hx with h | h | h
          · exact Or.inl (Or.inl h)
          · exact Or.inl (Or.inr (Or.inl h))
          · rcases ihr h with h3 | h3
            · refine Or.inl (Or.inr (Or.inr ?_))
              simpa [TreeNode.keysb] using h3
            · exact Or.inr h3

/-- The recursive wrapper put preserves the ordering invariant (the
overwrite branch keeps the same key, so key ordering is untouched). -/
theorem TreeNode.isBST_putRecLoop (key : Nat) (v : GoVal) :
    ∀ t : TreeNode, t.isBST = true →
      ((TreeNode.putRecLoop key v t).1).isBST = true := by
  intro t
  induction t with
  | nil => intro h; simpa [TreeNode.putRecLoop] using h
  | mk n m l r ihl ihr =>
    intro h
    simp only [TreeNode.isBST, Bool.and_eq_true, List.all_eq_true, decide_eq_true_eq] at h
    obtain ⟨⟨⟨hla, hra⟩, hbl⟩, hbr⟩ := h
    by_cases h1 : n.key = key
    · rw [TreeNode.putRecLoop_eq_here n m l r key v h1]
      simp only [TreeNode.isBST, Bool.and_eq_true, List.all_eq_true, decide_eq_true_eq]
      subst h1
      exact ⟨⟨⟨hla, hra⟩, hbl⟩, hbr⟩
    · by_cases h2 : n.key > key
      · cases l with
        | nil =>
          rw [TreeNode.putRecLoop_eq_left_nil n m r key v h1 h2]
          simp only [TreeNode.isBST, newTreeNode, TreeNode.keysb, Bool.and_eq_true,
            List.all_eq_true, decide_eq_true_eq]
          refine ⟨⟨⟨?_, hra⟩, by simp [TreeNode.isBST]⟩, hbr⟩
          intro x hx
          simp only [List.nil_append, List.mem_cons, List.not_mem_nil, or_false] at hx
          subst hx
          exact h2
        | mk ln lm ll lr =>
          rw [TreeNode.putRecLoop_eq_left n m (TreeNode.mk ln lm ll lr) r key v h1 h2 rfl]
          obtain ⟨m2, hshape⟩ :=
            attachLeft_shape n m r (TreeNode.putRecLoop key v (TreeNode.mk ln lm ll lr))
          rw [hshape]
          simp only [TreeNode.isBST, Bool.and_eq_true, List.all_eq_true, decide_eq_true_eq]
          refine ⟨⟨⟨?_, hra⟩, ihl hbl⟩, hbr⟩
          intro x hx
          rcases TreeNode.mem_keysb_putRecLoop key x v (TreeNode.mk ln lm ll lr) hx
            with h3 | h3
          · exact hla x h3
          · subst h3; exact h2
      · cases r with
        | nil =>
          rw [TreeNode.putRecLoop_eq_right_nil n m l key v h1 h2]
          simp only [TreeNode.isBST, newTreeNode, TreeNode.keysb, Bool.and_eq_true,
            List.all_eq_true, decide_eq_true_eq]
          refine ⟨⟨⟨hla, ?_⟩, hbl⟩, by simp [TreeNode.isBST]⟩
          intro x hx
          simp only [List.nil_append, List.mem_cons, List.not_mem_nil, or_false] at hx
          subst hx
          omega
        | mk rn rm rl rr =>
          rw [TreeNode.putRecLoop_eq_right n m l (TreeNode.mk rn rm rl rr) key v h1 h2 rfl]
          obtain ⟨m2, hshape⟩ :=
            attachRight_shape n m l (TreeNode.putRecLoop key v (TreeNode.mk rn rm rl rr))
          rw [hshape]
          simp only [TreeNode.isBST, Bool.and_eq_true, List.all_eq_true, decide_eq_true_eq]
          refine ⟨⟨⟨hla, ?_⟩, hbl⟩, ihr hbr⟩
          intro x hx
          rcases TreeNode.mem_keysb_putRecLoop key x v (TreeNode.mk rn rm rl rr) hx
            with h3 | h3
          · exact hra x h3
          · subst h3; omega

/-- The iterative wrapper put preserves the ordering invariant as well:
its overwrite branch replaces the node record with one carrying the same
key (only `depth` and `side` are taken from the receiver). -/
theorem TreeNode.isBST_putLoop (rd : Nat) (rs : NodeSide) (key : Nat) (v : GoVal) :
    ∀ t : TreeNode, t.isBST = true →
      ((TreeNode.putLoop rd rs key v t).1).isBST = true := by
  intro t
  induction t with
  | nil => intro h; simpa [TreeNode.putLoop] using h
  | mk n m l r ihl ihr =>
    intro h
    simp only [TreeNode.isBST, Bool.and_eq_true, List.all_eq_true, decide_eq_true_eq] at h
    obtain ⟨⟨⟨hla, hra⟩, hbl⟩, hbr⟩ := h
    by_cases h1 : n.key = key
    · rw [TreeNode.putLoop_eq_here rd rs n m l r key v h1]
      simp only [TreeNode.isBST, Bool.and_eq_true, List.all_eq_true, decide_eq_true_eq]
      subst h1
      exact ⟨⟨⟨hla, hra⟩, hbl⟩, hbr⟩
    · by_cases h2 : n.key > key
      · cases l with
        | nil =>
          rw [TreeNode.putLoop_eq_left_nil rd rs n m r key v h1 h2]
          simp only [TreeNode.isBST, newTreeNode, TreeNode.keysb, Bool.and_eq_true,
            List.all_eq_true, decide_eq_true_eq]
          refine ⟨⟨⟨?_, hra⟩, by simp [TreeNode.isBST]⟩, hbr⟩
          intro x hx
          simp only [List.nil_append, List.mem_cons, List.not_mem_nil, or_false] at hx
          subst hx
          exact h2
        | mk ln lm ll lr =>
          rw [TreeNode.putLoop_eq_left rd rs n m (TreeNode.mk ln lm ll lr) r key v h1 h2 rfl]
          obtain ⟨m2, hshape⟩ :=
            attachLeft_shape n m r (TreeNode.putLoop rd rs key v (TreeNode.mk ln lm ll lr))
          rw [hshape]
          simp only [TreeNode.isBST, Bool.and_eq_true, List.all_eq_true, decide_eq_true_eq]
          refine ⟨⟨⟨?_, hra⟩, ihl hbl⟩, hbr⟩
          intro x hx
          rcases TreeNode.mem_keysb_putLoop rd rs key x v (TreeNode.mk ln lm ll lr) hx
            with h3 | h3
          · exact hla x h3
          · subst h3; exact h2
      · cases r with
        | nil =>
          rw [TreeNode.putLoop_eq_right_nil rd rs n m l key v h1 h2]
          simp only [TreeNode.isBST, newTreeNode, TreeNode.keysb, Bool.and_eq_true,
            List.all_eq_true, decide_eq_true_eq]
          refine ⟨⟨⟨hla, ?_⟩, hbl⟩, by simp [TreeNode.isBST]⟩
          intro x hx
          simp only [List.nil_append, List.mem_cons, List.not_mem_nil, or_false] at hx
          subst hx
          omega
        | mk rn rm rl rr =>
          rw [TreeNode.putLoop_eq_right rd rs n m l (TreeNode.mk rn rm rl rr) key v h1 h2 rfl]
          obtain ⟨m2, hshape⟩ :=
            attachRight_shape n m l (TreeNode.putLoop rd rs key v (TreeNode.mk rn rm rl rr))
          rw [hshape]
          simp only [TreeNode.isBST, Bool.and_eq_true, List.all_eq_true, decide_eq_true_eq]
          refine ⟨⟨⟨hla, ?_⟩, hbl⟩, ihr hbr⟩
          intro x hx
          rcases TreeNode.mem_keysb_putLoop rd rs key x v (TreeNode.mk rn rm rl rr) hx
            with h3 | h3
          · exact hra x h3
          · subst h3; omega

/-- A wrapper tree satisfying the ordering invariant has distinct keys. -/
theorem TreeNode.nodup_of_isBST : ∀ t : TreeNode, t.isBST = true → t.keysb.Nodup := by
  intro t
  induction t with
  | nil =>
    intro _
    simp [TreeNode.keysb]
  | mk n m l r ihl ihr =>
    intro h
    simp only [TreeNode.isBST, Bool.and_eq_true, List.all_eq_true, decide_eq_true_eq] at h
    obtain ⟨⟨⟨hla, hra⟩, hbl⟩, hbr⟩ := h
    simp only [TreeNode.keysb]
    exact nodup_mid _ _ _ hla hra (ihl hbl) (ihr hbr)

/-- When the key is absent from the tree, the iterative and recursive
walks coincide (the only branch where they differ is the overwrite). -/
theorem TreeNode.putLoop_eq_putRecLoop (rd : Nat) (rs : NodeSide) (key : Nat) (v : GoVal) :
    ∀ t : TreeNode, key ∉ t.keysb →
      TreeNode.putLoop rd rs key v t = TreeNode.putRecLoop key v t := by
  intro t
  induction t with
  | nil => intro _; rfl
  | mk n m l r ihl ihr =>
    intro hk
    simp only [TreeNode.keysb, List.mem_append, List.mem_cons] at hk
    push_neg at hk
    obtain ⟨hkl, hkn, hkr⟩ := hk
    have h1 : ¬ n.key = key := fun h => hkn h.symm
    by_cases h2 : n.key > key
    · cases l with
      | nil =>
        rw [TreeNode.putLoop_eq_left_nil rd rs n m r key v h1 h2,
          TreeNode.putRecLoop_eq_left_nil n m r key v h1 h2]
      | mk ln lm ll lr =>
        rw [TreeNode.putLoop_eq_left rd rs n m (TreeNode.mk ln lm ll lr) r key v h1 h2 rfl,
          TreeNode.putRecLoop_eq_left n m (TreeNode.mk ln lm ll lr) r key v h1 h2 rfl,
          ihl hkl]
    · cases r with
      | nil =>
        rw [TreeNode.putLoop_eq_right_nil rd rs n m l key v h1 h2,
          TreeNode.putRecLoop_eq_right_nil n m l key v h1 h2]
      | mk rn rm rl rr =>
        rw [TreeNode.putLoop_eq_right rd rs n m l (TreeNode.mk rn rm rl rr) key v h1 h2 rfl,
          TreeNode.putRecLoop_eq_right n m l (TreeNode.mk rn rm rl rr) key v h1 h2 rfl,
          ihr hkr]

/-- The recursive wrapper put preserves correct depth fields (the
overwrite branch reuses the matched node's own depth). -/
theorem TreeNode.depthsOK_putRecLoop (key : Nat) (v : GoVal) :
    ∀ (t : TreeNode) (d : Nat), TreeNode.depthsOK d t = true →
      TreeNode.depthsOK d ((TreeNode.putRecLoop key v t).1) = true := by
  intro t
  induction t with
  | nil => intro d h; simpa [TreeNode.putRecLoop] using h
  | mk n m l r ihl ihr =>
    intro d h
    simp only [TreeNode.depthsOK, Bool.and_eq_true, beq_iff_eq] at h
    obtain ⟨⟨hd, hl⟩, hr⟩ := h
    by_cases h1 : n.key = key
    · rw [TreeNode.putRecLoop_eq_here n m l r key v h1]
      simp only [TreeNode.depthsOK, Bool.and_eq_true, beq_iff_eq]
      exact ⟨⟨hd, hl⟩, hr⟩
    · by_cases h2 : n.key > key
      · cases l with
        | nil =>
          rw [TreeNode.putRecLoop_eq_left_nil n m r key v h1 h2]
          simp [TreeNode.depthsOK, newTreeNode, hd, hr]
        | mk ln lm ll lr =>
          rw [TreeNode.putRecLoop_eq_left n m (TreeNode.mk ln lm ll lr) r key v h1 h2 rfl]
          obtain ⟨m2, hshape⟩ :=
            attachLeft_shape n m r (TreeNode.putRecLoop key v (TreeNode.mk ln lm ll lr))
          rw [hshape]
          simp only [TreeNode.depthsOK, Bool.and_eq_true, beq_iff_eq]
          exact ⟨⟨hd, ihl (d + 1) hl⟩, hr⟩
      · cases r with
        | nil =>
          rw [TreeNode.putRecLoop_eq_right_nil n m l key v h1 h2]
          simp [TreeNode.depthsOK, newTreeNode, hd, hl]
        | mk rn rm rl rr =>
          rw [TreeNode.putRecLoop_eq_right n m l (TreeNode.mk rn rm rl rr) key v h1 h2 rfl]
          obtain ⟨m2, hshape⟩ :=
            attachRight_shape n m l (TreeNode.putRecLoop key v (TreeNode.mk rn rm rl rr))
          rw [hshape]
          simp only [TreeNode.depthsOK, Bool.and_eq_true, beq_iff_eq]
          exact ⟨⟨hd, hl⟩, ihr (d + 1) hr⟩

/-- Every `updateMeta` step raises `depthMax` to the maximum of its old
value and the new node's depth, whatever the child side. -/
theorem updateMetaStep_depthMax (m : Meta) (cs : NodeSide) (sd sk : Nat) :
    (updateMetaStep m cs sd sk).depthMax = max m.depthMax sd := by
  cases cs <;> simp only [updateMetaStep] <;> split_ifs <;> simp <;> omega

/-- The recursive wrapper put keeps every node's `depthMax` equal to the
largest depth stored in its subtree, and the maximum stored depth after
the call is the old one (overwrite) or its max with the new node's depth
(insertion). -/
theorem TreeNode.dm_putRecLoop (key : Nat) (v : GoVal) :
    ∀ t : TreeNode, TreeNode.dmOK t = true →
      TreeNode.dmOK ((TreeNode.putRecLoop key v t).1) = true ∧
      ((TreeNode.putRecLoop key v t).2 = none →
        TreeNode.maxDepth ((TreeNode.putRecLoop key v t).1) = TreeNode.maxDepth t) ∧
      (∀ sd sk, (TreeNode.putRecLoop key v t).2 = some (sd, sk) →
        TreeNode.maxDepth ((TreeNode.putRecLoop key v t).1)
          = max (TreeNode.maxDepth t) sd) := by
  intro t
  induction t with
  | nil =>
    intro _
    refine ⟨by simp [TreeNode.putRecLoop, TreeNode.dmOK], by simp [TreeNode.putRecLoop], ?_⟩
    intro sd sk hs
    simp [TreeNode.putRecLoop] at hs
  | mk n m l r ihl ihr =>
    intro h
    simp only [TreeNode.dmOK, Bool.and_eq_true, beq_iff_eq] at h
    obtain ⟨⟨hm, hl⟩, hr⟩ := h
    by_cases h1 : n.key = key
    · rw [TreeNode.putRecLoop_eq_here n m l r key v h1]
      dsimp only
      refine ⟨?_, fun _ => by simp [TreeNode.maxDepth], fun sd sk hs => by simp at hs⟩
      simp only [TreeNode.dmOK, TreeNode.maxDepth, Bool.and_eq_true, beq_iff_eq]
      exact ⟨⟨hm, hl⟩, hr⟩
    · by_cases h2 : n.key > key
      · cases l with
        | nil =>
          rw [TreeNode.putRecLoop_eq_left_nil n m r key v h1 h2]
          dsimp only
          simp only [TreeNode.maxDepth] at hm
          refine ⟨?_, fun habs => by simp at habs, ?_⟩
          · simp only [TreeNode.dmOK, TreeNode.maxDepth, newTreeNode, Bool.and_eq_true,
              beq_iff_eq, updateMetaStep_depthMax]
            refine ⟨⟨?_, by simp⟩, hr⟩
            omega
          · intro sd sk hs
            simp only [Option.some.injEq, Prod.mk.injEq] at hs
            obtain ⟨rfl, rfl⟩ := hs
            simp only [TreeNode.maxDepth, newTreeNode]
            omega
        | mk ln lm ll lr =>
          rw [TreeNode.putRecLoop_eq_left n m (TreeNode.mk ln lm ll lr) r key v h1 h2 rfl]
          obtain ⟨ihl1, ihl2, ihl3⟩ := ihl hl
          rcases hp : TreeNode.putRecLoop key v (TreeNode.mk ln lm ll lr) with ⟨l2, c⟩
          rw [hp] at ihl1 ihl2 ihl3
          simp only [TreeNode.maxDepth] at hm
          cases c with
          | none =>
            dsimp only at ihl2 ⊢
            simp only [attachLeft]
            have hml2 : TreeNode.maxDepth l2 = TreeNode.maxDepth (TreeNode.mk ln lm ll lr) :=
              ihl2 rfl
            simp only [TreeNode.maxDepth] at hml2
            refine ⟨?_, fun _ => ?_, fun sd sk hs => by simp at hs⟩
            · simp only [TreeNode.dmOK, TreeNode.maxDepth, Bool.and_eq_true, beq_iff_eq]
              refine ⟨⟨?_, ihl1⟩, hr⟩
              rw [hml2]
              exact hm
            · simp only [TreeNode.maxDepth]
              rw [hml2]
          | some p =>
            rcases p with ⟨sd0, sk0⟩
            dsimp only at ihl3 ⊢
            simp only [attachLeft]
            have hml2 : TreeNode.maxDepth l2
                = max (TreeNode.maxDepth (TreeNode.mk ln lm ll lr)) sd0 := ihl3 sd0 sk0 rfl
            simp only [TreeNode.maxDepth] at hml2
            refine ⟨?_, fun habs => by simp at habs, ?_⟩
            · simp only [TreeNode.dmOK, TreeNode.maxDepth, Bool.and_eq_true, beq_iff_eq,
                updateMetaStep_depthMax]
              refine ⟨⟨?_, ihl1⟩, hr⟩
              rw [hml2]
              omega
            · intro sd sk hs
              simp only [Option.some.injEq, Prod.mk.injEq] at hs
              obtain ⟨rfl, rfl⟩ := hs
              simp only [TreeNode.maxDepth]
              rw [hml2]
              omega
      · cases r with
        | nil =>
          rw [TreeNode.putRecLoop_eq_right_nil n m l key v h1 h2]
          dsimp only
          simp only [TreeNode.maxDepth] at hm
          refine ⟨?_, fun habs => by simp at habs, ?_⟩
          · simp only [TreeNode.dmOK, TreeNode.maxDepth, newTreeNode, Bool.and_eq_true,
              beq_iff_eq, updateMetaStep_depthMax]
            refine ⟨⟨?_, hl⟩, by simp⟩
            omega
          · intro sd sk hs
            simp only [Option.some.injEq, Prod.mk.injEq] at hs
            obtain ⟨rfl, rfl⟩ := hs
            simp only [TreeNode.maxDepth, newTreeNode]
            omega
        | mk rn rm rl rr =>
          rw [TreeNode.putRecLoop_eq_right n m l (TreeNode.mk rn rm rl rr) key v h1 h2 rfl]
          obtain ⟨ihr1, ihr2, ihr3⟩ := ihr hr
          rcases hp : TreeNode.putRecLoop key v (TreeNode.mk rn rm rl rr) with ⟨r2, c⟩
          rw [hp] at ihr1 ihr2 ihr3
          simp only [TreeNode.maxDepth] at hm
          cases c with
          | none =>
            dsimp only at ihr2 ⊢
            simp only [attachRight]
            have hmr2 : TreeNode.maxDepth r2 = TreeNode.maxDepth (TreeNode.mk rn rm rl rr) :=
              ihr2 rfl
            simp only [TreeNode.maxDepth] at hmr2
            refine ⟨?_, fun _ => ?_, fun sd sk hs => by simp at hs⟩
            · simp only [TreeNode.dmOK, TreeNode.maxDepth, Bool.and_eq_true, beq_iff_eq]
              refine ⟨⟨?_, hl⟩, ihr1⟩
              rw [hmr2]
              exact hm
            · simp only [TreeNode.maxDepth]
              rw [hmr2]
          | some p =>
            rcases p with ⟨sd0, sk0⟩
            dsimp only at ihr3 ⊢
            simp only [attachRight]
            have hmr2 : TreeNode.maxDepth r2
                = max (TreeNode.maxDepth (TreeNode.mk rn rm rl rr)) sd0 := ihr3 sd0 sk0 rfl
            simp only [TreeNode.maxDepth] at hmr2
            refine ⟨?_, fun habs => by simp at habs, ?_⟩
            · simp only [TreeNode.dmOK, TreeNode.maxDepth, Bool.and_eq_true, beq_iff_eq,
                updateMetaStep_depthMax]
              refine ⟨⟨?_, hl⟩, ihr1⟩
              rw [hmr2]
              omega
            · intro sd sk hs
              simp only [Option.some.injEq, Prod.mk.injEq] at hs
              obtain ⟨rfl, rfl⟩ := hs
              simp only [TreeNode.maxDepth]
              rw [hmr2]
              omega

/-- With correct depth fields, the largest stored depth is the subtree
root's depth plus the edge count of the longest root-to-leaf path. -/
theorem TreeNode.maxDepth_heightEdges :
    ∀ (t : TreeNode) (d : Nat), TreeNode.depthsOK d t = true → t.isNil = false →
      TreeNode.maxDepth t = d + TreeNode.heightEdges t := by
  intro t
  induction t with
  | nil => intro d _ h; simp [TreeNode.isNil] at h
  | mk n m l r ihl ihr =>
    intro d h _
    simp only [TreeNode.depthsOK, Bool.and_eq_true, beq_iff_eq] at h
    obtain ⟨⟨hd, hl⟩, hr⟩ := h
    cases l with
    | nil =>
      cases r with
      | nil =>
        have h1 : TreeNode.maxDepth (TreeNode.mk n m TreeNode.nil TreeNode.nil)
            = max n.depth (max 0 0) := rfl
        have h2 : TreeNode.heightEdges (TreeNode.mk n m TreeNode.nil TreeNode.nil)
            = 0 := rfl
        rw [h1, h2]
        omega
      | mk rn rm rl rr =>
        have h3 := ihr (d + 1) hr rfl
        have h1 : TreeNode.maxDepth (TreeNode.mk n m TreeNode.nil (TreeNode.mk rn rm rl rr))
            = max n.depth (max 0 (TreeNode.maxDepth (TreeNode.mk rn rm rl rr))) := rfl
        have h2 : TreeNode.heightEdges (TreeNode.mk n m TreeNode.nil (TreeNode.mk rn rm rl rr))
            = 1 + max 0 (TreeNode.heightEdges (TreeNode.mk rn rm rl rr)) := rfl
        rw [h1, h2, h3]
        omega
    | mk ln lm ll lr =>
      cases r with
      | nil =>
        have h3 := ihl (d + 1) hl rfl
        have h1 : TreeNode.maxDepth (TreeNode.mk n m (TreeNode.mk ln lm ll lr) TreeNode.nil)
            = max n.depth (max (TreeNode.maxDepth (TreeNode.mk ln lm ll lr)) 0) := rfl
        have h2 : TreeNode.heightEdges (TreeNode.mk n m (TreeNode.mk ln lm ll lr) TreeNode.nil)
            = 1 + max (TreeNode.heightEdges (TreeNode.mk ln lm ll lr)) 0 := rfl
        rw [h1, h2, h3]
        omega
      | mk rn rm rl rr =>
        have h3 := ihl (d + 1) hl rfl
        have h4 := ihr (d + 1) hr rfl
        have h1 : TreeNode.maxDepth
              (TreeNode.mk n m (TreeNode.mk ln lm ll lr) (TreeNode.mk rn rm rl rr))
            = max n.depth (max (TreeNode.maxDepth (TreeNode.mk ln lm ll lr))
                (TreeNode.maxDepth (TreeNode.mk rn rm rl rr))) := rfl
        have h2 : TreeNode.heightEdges
              (TreeNode.mk n m (TreeNode.mk ln lm ll lr) (TreeNode.mk rn rm rl rr))
            = 1 + max (TreeNode.heightEdges (TreeNode.mk ln lm ll lr))
                (TreeNode.heightEdges (TreeNode.mk rn rm rl rr)) := rfl
        rw [h1, h2, h3, h4]
        omega

/-- The combined wrapper depth invariant: correct depth fields starting
at `1` for the root, and `depthMax` correct at every node. -/
def goodLT (lt : LockingTree) : Prop :=
  TreeNode.depthsOK 1 lt.root = true ∧ TreeNode.dmOK lt.root = true

/-- The empty wrapper satisfies the depth invariant. -/
theorem goodLT_empty : goodLT NewLockingTree := by
  constructor <;> rfl

/-- A wrapper put preserves the depth invariant provided an iterative
put never hits an existing key. -/
theorem goodLT_put (lt : LockingTree) (k : Nat) (v : GoVal) (recurse : Bool)
    (hgood : goodLT lt)
    (hsafe : recurse = true ∨ k ∉ TreeNode.keysb lt.root) :
    goodLT (lt.put k v recurse) := by
  obtain ⟨hdep, hdm⟩ := hgood
  rcases hroot : lt.root with _ | ⟨n, m, l, r⟩
  · constructor
    · simp [LockingTree.put, hroot, newTreeNode, TreeNode.depthsOK]
    · simp [LockingTree.put, hroot, newTreeNode, TreeNode.dmOK, TreeNode.maxDepth]
  · rw [hroot] at hdep hdm
    have hrec : ∀ u : LockingTree,
        u.root = (TreeNode.putRecLoop k v (TreeNode.mk n m l r)).1 → goodLT u := by
      intro u hu
      constructor
      · rw [hu]
        exact TreeNode.depthsOK_putRecLoop k v (TreeNode.mk n m l r) 1 hdep
      · rw [hu]
        exact (TreeNode.dm_putRecLoop k v (TreeNode.mk n m l r) hdm).1
    cases recurse with
    | true =>
      apply hrec
      simp [LockingTree.put, hroot, TreeNode.PutRecurse]
    | false =>
      rcases hsafe with h | h
      · exact absurd h (by simp)
      · apply hrec
        rw [hroot] at h
        simp only [LockingTree.put, hroot, TreeNode.Put]
        rw [TreeNode.putLoop_eq_putRecLoop _ _ k v (TreeNode.mk n m l r) h]
        simp

/-- Keys after any wrapper put come from the old tree or are the new key. -/
theorem LockingTree.mem_keysb_put_op (lt : LockingTree) (k : Nat) (v : GoVal)
    (recurse : Bool) (x : Nat)
    (hx : x ∈ TreeNode.keysb (lt.put k v recurse).root) :
    x ∈ TreeNode.keysb lt.root ∨ x = k := by
  rcases hroot : lt.root with _ | ⟨n, m, l, r⟩
  · simp only [LockingTree.put, hroot] at hx
    simp [newTreeNode, TreeNode.keysb] at hx
    exact Or.inr hx
  · cases recurse with
    | true =>
      simp only [LockingTree.put, hroot, TreeNode.PutRecurse, if_pos] at hx
      exact TreeNode.mem_keysb_putRecLoop k x v (TreeNode.mk n m l r) (by exact hx)
    | false =>
      simp only [LockingTree.put, hroot, TreeNode.Put, Bool.false_eq_true, if_false] at hx
      exact TreeNode.mem_keysb_putLoop _ _ k x v (TreeNode.mk n m l r) (by exact hx)

/-- Safe operation folds preserve the wrapper depth invariant. -/
theorem goodLT_applyOps :
    ∀ (ops : List LtOp) (lt : LockingTree), goodLT lt → safeOps lt ops = true →
      goodLT (LockingTree.applyOps lt ops) := by
  intro ops
  induction ops with
  | nil => intro lt h _; simpa [LockingTree.applyOps] using h
  | cons p rest ih =>
    intro lt h hsafe
    rcases p with ⟨recurse, k, v⟩
    simp only [safeOps, Bool.and_eq_true, Bool.or_eq_true, Bool.not_eq_true',
      decide_eq_false_iff_not] at hsafe
    obtain ⟨h1, h2⟩ := hsafe
    have hstep : goodLT (lt.put k v recurse) := by
      apply goodLT_put lt k v recurse h
      rcases h1 with h1 | h1
      · exact Or.inl h1
      · exact Or.inr h1
    exact ih (lt.put k v recurse) hstep h2

/-- On a fresh key the two wrapper insertion entry points agree. -/
theorem LockingTree.Put_eq_PutRecurse (lt : LockingTree) (k : Nat) (v : GoVal)
    (h : k ∉ TreeNode.keysb lt.root) :
    lt.Put k v = lt.PutRecurse k v := by
  rcases hroot : lt.root with _ | ⟨n, m, l, r⟩
  · simp [LockingTree.Put, LockingTree.PutRecurse, LockingTree.put, hroot]
  · rw [hroot] at h
    simp only [LockingTree.Put, LockingTree.PutRecurse, LockingTree.put, hroot,
      TreeNode.Put, TreeNode.PutRecurse, Bool.false_eq_true, if_false, if_pos]
    rw [TreeNode.putLoop_eq_putRecLoop _ _ k v (TreeNode.mk n m l r) h]

/-- Iterative and recursive folds agree on any sequence whose keys are
fresh for the starting tree and pairwise distinct. -/
theorem LockingTree.applyPutsIter_eq_applyPutsRec_aux :
    ∀ (ops : List (Nat × GoVal)) (lt : LockingTree),
      (∀ k ∈ ops.map Prod.fst, k ∉ TreeNode.keysb lt.root) →
      (ops.map Prod.fst).Nodup →
      LockingTree.applyPutsIter lt ops = LockingTree.applyPutsRec lt ops := by
  intro ops
  induction ops with
  | nil => intro lt _ _; rfl
  | cons p rest ih =>
    intro lt hfresh hnodup
    rcases p with ⟨k, v⟩
    simp only [List.map_cons, List.mem_cons, List.nodup_cons] at hfresh hnodup
    have hk : k ∉ TreeNode.keysb lt.root := hfresh k (Or.inl rfl)
    have hstep : lt.Put k v = lt.PutRecurse k v := LockingTree.Put_eq_PutRecurse lt k v hk
    have hnew : ∀ k2 ∈ rest.map Prod.fst, k2 ∉ TreeNode.keysb (lt.Put k v).root := by
      intro k2 hk2 hmem
      rcases LockingTree.mem_keysb_put_op lt k v false k2 (by exact hmem) with h | h
      · exact hfresh k2 (Or.inr hk2) h
      · exact hnodup.1 (h ▸ hk2)
    simp only [LockingTree.applyPutsIter, LockingTree.applyPutsRec, List.foldl_cons]
    have h1 : LockingTree.applyPutsIter (lt.Put k v) rest
        = LockingTree.applyPutsRec (lt.Put k v) rest := ih (lt.Put k v) hnew hnodup.2
    simp only [LockingTree.applyPutsIter, LockingTree.applyPutsRec] at h1
    rw [h1, hstep]

/-- Any wrapper put preserves the ordering invariant of the root tree. -/
theorem LockingTree.isBST_put_op (lt : LockingTree) (k : Nat) (v : GoVal) (recurse : Bool)
    (h : TreeNode.isBST lt.root = true) :
    TreeNode.isBST (lt.put k v recurse).root = true := by
  rcases hroot : lt.root with _ | ⟨n, m, l, r⟩
  · simp [LockingTree.put, hroot, newTreeNode, TreeNode.isBST, TreeNode.keysb]
  · rw [hroot] at h
    cases recurse with
    | true =>
      simp only [LockingTree.put, hroot, TreeNode.PutRecurse, if_pos]
      exact TreeNode.isBST_putRecLoop k v (TreeNode.mk n m l r) h
    | false =>
      simp only [LockingTree.put, hroot, TreeNode.Put, Bool.false_eq_true, if_false]
      exact TreeNode.isBST_putLoop _ _ k v (TreeNode.mk n m l r) h

/-- Folding any wrapper operations preserves the ordering invariant. -/
theorem LockingTree.isBST_applyOps :
    ∀ (ops : List LtOp) (lt : LockingTree), TreeNode.isBST lt.root = true →
      TreeNode.isBST (LockingTree.applyOps lt ops).root = true := by
  intro ops
  induction ops with
  | nil => intro lt h; simpa [LockingTree.applyOps] using h
  | cons p rest ih =>
    intro lt h
    rcases p with ⟨recurse, k, v⟩
    exact ih (lt.put k v recurse) (LockingTree.isBST_put_op lt k v recurse h)

/-- The iterative and recursive tree walks agree on every tree and key. -/
theorem TreeNode.Get_eq_GetRecurse :
    ∀ (t : TreeNode) (key : Nat), TreeNode.Get t key = TreeNode.GetRecurse t key := by
  intro t
  induction t with
  | nil => intro key; rfl
  | mk n m l r ihl ihr =>
    intro key
    simp only [TreeNode.Get, TreeNode.GetRecurse]
    split_ifs with h1 h2 h3
    · rfl
    · rw [ihl key]
      cases TreeNode.GetRecurse l key <;> rfl
    · rw [ihr key]
      cases TreeNode.GetRecurse r key <;> rfl
    · rfl

/-! ## Claim theorems -/

/-- C1: the claim says `Put(k, v)` overwrites the value of an existing
key in both variants.  The wrapper variant does overwrite (shown here
via `PutRecurse` on key 7, with the node count unchanged), but the
per-node variant of `gerbst.go` does not: its `put` has no equal-key
branch (and its exported `Put` additionally drops a non-nil value), so
`Put(7, 1)` on the test tree `{12,11,90,82,7,9}` returns the tree
completely unchanged, with key 7 still bound to value 7, contradicting
the claim, the spec and `TestDoesItWorkAtAll` in `gerbst_test.go`. -/
theorem C1_per_node_put_does_not_overwrite :
    Node.Put (NewWithKeys [12, 11, 90, 82, 7, 9]) 7 (some 1)
        = NewWithKeys [12, 11, 90, 82, 7, 9] ∧
    Node.kvs (NewWithKeys [12, 11, 90, 82, 7, 9])
        = [(7, some 7), (9, some 9), (11, some 11), (12, some 12),
           (82, some 82), (90, some 90)] ∧
    LockingTree.Get
        (LockingTree.PutRecurse (NewLockingTreeWithKeys [12, 11, 90, 82, 7, 9]) 7 (some 1)) 7
      = some ⟨7, some 1, 3, NodeSide.left⟩ ∧
    LockingTree.Count
        (LockingTree.PutRecurse (NewLockingTreeWithKeys [12, 11, 90, 82, 7, 9]) 7 (some 1))
      = 6 := by
  refine ⟨by decide, by decide, by decide, by decide⟩

/-- C2 counterexample: the claim's depth statistics (3, 3, 2) do not
match the code, which seeds the wrapper root at depth 1 (its own test
expects 4, 4, 3). -/
theorem C2_depth_stats_counterexample :
    ¬ (LockingTree.DepthMax (NewLockingTreeWithKeys [12, 11, 90, 82, 7, 9]) = 3) ∧
    ¬ (LockingTree.DepthMaxLeft (NewLockingTreeWithKeys [12, 11, 90, 82, 7, 9]) = 3) ∧
    ¬ (LockingTree.DepthMaxRight (NewLockingTreeWithKeys [12, 11, 90, 82, 7, 9]) = 2) := by
  refine ⟨by decide, by decide, by decide⟩

/-- C2 (amended): after inserting `{12,11,90,82,7,9}` in order into a
fresh wrapper, the aggregate readers return `Count = 6`,
`CountLeft = 3`, `CountRight = 2`, `DepthMax = 4`, `DepthMaxLeft = 4`,
`DepthMaxRight = 3`, `LowestKey = 7` and `HighestKey = 90` (depths are
1-based: the root is created at depth 1). -/
theorem C2_metadata_amended :
    LockingTree.Count (NewLockingTreeWithKeys [12, 11, 90, 82, 7, 9]) = 6 ∧
    LockingTree.CountLeft (NewLockingTreeWithKeys [12, 11, 90, 82, 7, 9]) = 3 ∧
    LockingTree.CountRight (NewLockingTreeWithKeys [12, 11, 90, 82, 7, 9]) = 2 ∧
    LockingTree.DepthMax (NewLockingTreeWithKeys [12, 11, 90, 82, 7, 9]) = 4 ∧
    LockingTree.DepthMaxLeft (NewLockingTreeWithKeys [12, 11, 90, 82, 7, 9]) = 4 ∧
    LockingTree.DepthMaxRight (NewLockingTreeWithKeys [12, 11, 90, 82, 7, 9]) = 3 ∧
    LockingTree.LowestKey (NewLockingTreeWithKeys [12, 11, 90, 82, 7, 9]) = 7 ∧
    LockingTree.HighestKey (NewLockingTreeWithKeys [12, 11, 90, 82, 7, 9]) = 90 := by
  refine ⟨by decide, by decide, by decide, by decide, by decide, by decide,
    by decide, by decide⟩

/-- C3 counterexample: the wrapper root node is created at depth 1, not
0, and after an iterative `Put` on the existing key 11 that node's
stored depth is 1 — equal to its parent root's depth instead of the
parent's depth plus one. -/
theorem C3_root_depth_counterexample :
    TreeNode.depthOf
        (((NewLockingTree.Put 12 (some 12)).Put 11 (some 11)).Put 11 (some 99)).root = 1 ∧
    LockingTree.Get
        (((NewLockingTree.Put 12 (some 12)).Put 11 (some 11)).Put 11 (some 99)) 11
      = some ⟨11, some 99, 1, NodeSide.root⟩ := by
  refine ⟨by decide, by decide⟩

/-- C3 (amended): in the per-node variant the root has depth 0 and every
node's stored depth is its parent's depth plus one, after any sequence
of puts.  In the wrapper variant the root is created at depth 1; for
every operation sequence in which the iterative `Put` never hits an
already-present key (recursive `PutRecurse` calls are unrestricted), all
stored depths are again parent-plus-one starting from 1, and `DepthMax`
of a nonempty tree whose longest root-to-leaf path has `n` edges is
`n + 1`. -/
theorem C3_depths_amended :
    (∀ (k0 : Nat) (v0 : GoVal) (ops : List (Nat × GoVal)),
      Node.depthsOK 0 (Node.applyPuts (New k0 v0) ops) = true) ∧
    (∀ ops : List LtOp, safeOps NewLockingTree ops = true →
      (LockingTree.applyOps NewLockingTree ops).root = TreeNode.nil ∨
        (TreeNode.depthOf (LockingTree.applyOps NewLockingTree ops).root = 1 ∧
         TreeNode.depthsOK 1 (LockingTree.applyOps NewLockingTree ops).root = true ∧
         LockingTree.DepthMax (LockingTree.applyOps NewLockingTree ops)
           = TreeNode.heightEdges (LockingTree.applyOps NewLockingTree ops).root + 1)) := by
  constructor
  · intro k0 v0 ops
    exact Node.depthsOK_applyPuts ops (New k0 v0) 0 (New_depthsOK k0 v0)
  · intro ops hsafe
    obtain ⟨hdep, hdm⟩ := goodLT_applyOps ops NewLockingTree goodLT_empty hsafe
    rcases hroot : (LockingTree.applyOps NewLockingTree ops).root with _ | ⟨n, m, l, r⟩
    · exact Or.inl rfl
    · rw [hroot] at hdep hdm
      refine Or.inr ⟨?_, hdep, ?_⟩
      · have h := hdep
        simp only [TreeNode.depthsOK, Bool.and_eq_true, beq_iff_eq] at h
        simpa [TreeNode.depthOf] using h.1.1
      · have hmd := TreeNode.maxDepth_heightEdges (TreeNode.mk n m l r) 1 hdep rfl
        have h := hdm
        simp only [TreeNode.dmOK, Bool.and_eq_true, beq_iff_eq] at h
        have hdmax : m.depthMax = TreeNode.maxDepth (TreeNode.mk n m l r) := by
          rw [h.1.1]
          rfl
        have hacc : LockingTree.DepthMax (LockingTree.applyOps NewLockingTree ops)
            = m.depthMax := by
          simp [LockingTree.DepthMax, hroot]
        rw [hacc, hdmax, hmd]
        omega

/-- C3 witness: a concrete safe operation sequence (iterative puts of 12
and 7, a recursive overwrite of 12) for which the amended depth
invariant is instantiated. -/
theorem C3_depths_amended_witness :
    safeOps NewLockingTree
        [(false, 12, some 12), (true, 12, some 99), (false, 7, some 7)] = true ∧
    ((LockingTree.applyOps NewLockingTree
        [(false, 12, some 12), (true, 12, some 99), (false, 7, some 7)]).root
          = TreeNode.nil ∨
      (TreeNode.depthOf (LockingTree.applyOps NewLockingTree
          [(false, 12, some 12), (true, 12, some 99), (false, 7, some 7)]).root = 1 ∧
       TreeNode.depthsOK 1 (LockingTree.applyOps NewLockingTree
          [(false, 12, some 12), (true, 12, some 99), (false, 7, some 7)]).root = true ∧
       LockingTree.DepthMax (LockingTree.applyOps NewLockingTree
          [(false, 12, some 12), (true, 12, some 99), (false, 7, some 7)])
         = TreeNode.heightEdges (LockingTree.applyOps NewLockingTree
          [(false, 12, some 12), (true, 12, some 99), (false, 7, some 7)]).root + 1)) :=
  ⟨by decide,
    C3_depths_amended.2
      [(false, 12, some 12), (true, 12, some 99), (false, 7, some 7)] (by decide)⟩

/-- C4: overwriting an existing non-root key through the iterative
`Put` is NOT a pure value update: the Go code rebuilds the matched
node's embedded record with `newNode(key, value, tn.depth, tn.side)`
where `tn` is the receiver (the root), so node 11's depth changes from
2 to 1 and its side from LEFT to ROOT, while `PutRecurse` keeps both.
The claim is right and the iterative code is a slip. -/
theorem C4_iterative_overwrite_corrupts_node :
    LockingTree.Get (NewLockingTreeWithKeys [12, 11]) 11
        = some ⟨11, some 11, 2, NodeSide.left⟩ ∧
    LockingTree.Get (LockingTree.Put (NewLockingTreeWithKeys [12, 11]) 11 (some 99)) 11
        = some ⟨11, some 99, 1, NodeSide.root⟩ ∧
    LockingTree.Get
        (LockingTree.PutRecurse (NewLockingTreeWithKeys [12, 11]) 11 (some 99)) 11
        = some ⟨11, some 99, 2, NodeSide.left⟩ ∧
    LockingTree.Count (LockingTree.Put (NewLockingTreeWithKeys [12, 11]) 11 (some 99)) = 2 := by
  refine ⟨by decide, by decide, by decide, by decide⟩

/-- C5: every tree reachable by any insertion sequence, in either
variant, satisfies the binary-search ordering invariant at every node,
and consequently all its keys are pairwise distinct. -/
theorem C5_bst_ordering_invariant :
    (∀ (k0 : Nat) (v0 : GoVal) (ops : List (Nat × GoVal)),
      (Node.applyPuts (New k0 v0) ops).isBST = true ∧
      (Node.applyPuts (New k0 v0) ops).keysb.Nodup) ∧
    (∀ ops : List LtOp,
      TreeNode.isBST (LockingTree.applyOps NewLockingTree ops).root = true ∧
      (TreeNode.keysb (LockingTree.applyOps NewLockingTree ops).root).Nodup) := by
  constructor
  · intro k0 v0 ops
    have h := Node.isBST_applyPuts ops (New k0 v0) (New_isBST k0 v0)
    exact ⟨h, Node.isBST_nodup _ h⟩
  · intro ops
    have h := LockingTree.isBST_applyOps ops NewLockingTree (by rfl)
    exact ⟨h, TreeNode.nodup_of_isBST _ h⟩

/-- C6: on every wrapper tree state and every key, `Get` and
`GetRecurse` return identical results, both at the raw tree level and
through the wrapper's bound-checked entry points. -/
theorem C6_get_getrecurse_agree :
    (∀ (t : TreeNode) (key : Nat), TreeNode.Get t key = TreeNode.GetRecurse t key) ∧
    (∀ (lt : LockingTree) (key : Nat),
      LockingTree.Get lt key = LockingTree.GetRecurse lt key) := by
  refine ⟨TreeNode.Get_eq_GetRecurse, ?_⟩
  intro lt key
  rcases hroot : lt.root with _ | ⟨n, m, l, r⟩
  · simp [LockingTree.Get, LockingTree.GetRecurse, hroot]
  · simp only [LockingTree.Get, LockingTree.GetRecurse, hroot]
    split_ifs
    · rfl
    · exact TreeNode.Get_eq_GetRecurse (TreeNode.mk n m l r) key

/-- C7 counterexample: with the repeated-key sequence
`(12,12), (11,11), (11,5)` the iterative and recursive folds disagree —
the overwritten node 11 ends at depth 1 / side ROOT in the iterative
tree but keeps depth 2 / side LEFT in the recursive one, so the claimed
shape equality (same keys at the same positions and depths) fails. -/
theorem C7_fold_equivalence_counterexample :
    LockingTree.applyPutsIter NewLockingTree [(12, some 12), (11, some 11), (11, some 5)]
      ≠ LockingTree.applyPutsRec NewLockingTree [(12, some 12), (11, some 11), (11, some 5)] ∧
    LockingTree.Get
        (LockingTree.applyPutsIter NewLockingTree
          [(12, some 12), (11, some 11), (11, some 5)]) 11
      = some ⟨11, some 5, 1, NodeSide.root⟩ ∧
    LockingTree.Get
        (LockingTree.applyPutsRec NewLockingTree
          [(12, some 12), (11, some 11), (11, some 5)]) 11
      = some ⟨11, some 5, 2, NodeSide.left⟩ := by
  refine ⟨by decide, by decide, by decide⟩

/-- C7 (amended): for every insertion sequence whose keys are pairwise
distinct, applying it with the iterative `Put` and with the recursive
`PutRecurse` produces identical wrapper trees — same keys at the same
positions and depths and identical metadata at every node.  (With a
repeated key the two differ exactly in the overwritten node's stored
depth and side, as the counterexample shows.) -/
theorem C7_fold_equivalence_amended :
    ∀ ops : List (Nat × GoVal), (ops.map Prod.fst).Nodup →
      LockingTree.applyPutsIter NewLockingTree ops
        = LockingTree.applyPutsRec NewLockingTree ops := by
  intro ops hnodup
  apply LockingTree.applyPutsIter_eq_applyPutsRec_aux ops NewLockingTree _ hnodup
  intro k _ hk
  simp [NewLockingTree, TreeNode.keysb] at hk

/-- C7 witness: the amended equivalence instantiated on the distinct-key
sequence `(12,12), (11,11), (90,90)`. -/
theorem C7_fold_equivalence_witness :
    ([(12, some 12), (11, some 11), (90, some 90)].map
        (Prod.fst (α := Nat) (β := GoVal))).Nodup ∧
    LockingTree.applyPutsIter NewLockingTree [(12, some 12), (11, some 11), (90, some 90)]
      = LockingTree.applyPutsRec NewLockingTree [(12, some 12), (11, some 11), (90, some 90)] :=
  ⟨by decide, C7_fold_equivalence_amended [(12, some 12), (11, some 11), (90, some 90)]
    (by decide)⟩

/-- C8: `deepestNode` is correct on the per-node variant.  On any tree
with consistent depth fields it returns one of the tree's own nodes and
no node is deeper; a leaf returns itself; with a single child the
result is that child subtree's result; with two children the strictly
deeper result wins and the right result wins ties; and on the test tree
`{12,11,90,82,7,9}` it returns the node with key 9 at depth 3. -/
theorem C8_deepest_node_correct :
    (∀ (t : Node) (d : Nat), t.isNil = false → Node.depthsOK d t = true →
      Node.deepestNode t ∈ t.nodesList ∧
      ∀ m ∈ t.nodesList, m.depthOf ≤ (Node.deepestNode t).depthOf) ∧
    (∀ (k : Nat) (v : GoVal) (d : Nat) (s : NodeSide),
      Node.deepestNode (Node.mk k v d s Node.nil Node.nil)
        = Node.mk k v d s Node.nil Node.nil) ∧
    (∀ (k : Nat) (v : GoVal) (d : Nat) (s : NodeSide) (l : Node), l.isNil = false →
      Node.deepestNode (Node.mk k v d s l Node.nil) = Node.deepestNode l) ∧
    (∀ (k : Nat) (v : GoVal) (d : Nat) (s : NodeSide) (r : Node), r.isNil = false →
      Node.deepestNode (Node.mk k v d s Node.nil r) = Node.deepestNode r) ∧
    (∀ (k : Nat) (v : GoVal) (d : Nat) (s : NodeSide) (l r : Node),
      l.isNil = false → r.isNil = false →
      Node.deepestNode (Node.mk k v d s l r)
        = (if (Node.deepestNode l).depthOf > (Node.deepestNode r).depthOf
           then Node.deepestNode l else Node.deepestNode r)) ∧
    (∀ (k : Nat) (v : GoVal) (d : Nat) (s : NodeSide) (l r : Node),
      l.isNil = false → r.isNil = false →
      (Node.deepestNode l).depthOf = (Node.deepestNode r).depthOf →
      Node.deepestNode (Node.mk k v d s l r) = Node.deepestNode r) ∧
    Node.deepestNode (NewWithKeys [12, 11, 90, 82, 7, 9])
      = Node.mk 9 (some 9) 3 NodeSide.right Node.nil Node.nil := by
  have htwo : ∀ (k : Nat) (v : GoVal) (d : Nat) (s : NodeSide) (l r : Node),
      l.isNil = false → r.isNil = false →
      Node.deepestNode (Node.mk k v d s l r)
        = (if (Node.deepestNode l).depthOf > (Node.deepestNode r).depthOf
           then Node.deepestNode l else Node.deepestNode r) := by
    intro k v d s l r hln hrn
    cases l with
    | nil => simp [Node.isNil] at hln
    | mk lk lv ld ls ll lr =>
      cases r with
      | nil => simp [Node.isNil] at hrn
      | mk rk rv rd2 rs rl rr =>
        rw [Node.deepestNode_mk_mk]
        simp only [Node.deepestNode_isNil (Node.mk lk lv ld ls ll lr) rfl,
          Node.deepestNode_isNil (Node.mk rk rv rd2 rs rl rr) rfl,
          Bool.false_eq_true, if_false]
  refine ⟨?_, ?_, ?_, ?_, htwo, ?_, by decide⟩
  · intro t d hnil hdep
    exact ⟨Node.deepestNode_mem t hnil, Node.deepestNode_max t d hdep⟩
  · intro k v d s
    exact Node.deepestNode_leaf k v d s
  · intro k v d s l hln
    cases l with
    | nil => simp [Node.isNil] at hln
    | mk lk lv ld ls ll lr => exact Node.deepestNode_mk_nil k v d s lk lv ld ls ll lr
  · intro k v d s r hrn
    cases r with
    | nil => simp [Node.isNil] at hrn
    | mk rk rv rd2 rs rl rr =>
      rw [Node.deepestNode_nil_mk]
      simp [Node.deepestNode_isNil (Node.mk rk rv rd2 rs rl rr) rfl]
  · intro k v d s l r hln hrn heq
    rw [htwo k v d s l r hln hrn, heq]
    simp

/-- C8 witness: the membership-and-maximality part instantiated on the
test tree (depths rooted at 0). -/
theorem C8_deepest_node_witness :
    Node.isNil (NewWithKeys [12, 11, 90, 82, 7, 9]) = false ∧
    Node.depthsOK 0 (NewWithKeys [12, 11, 90, 82, 7, 9]) = true ∧
    Node.deepestNode (NewWithKeys [12, 11, 90, 82, 7, 9])
      ∈ (NewWithKeys [12, 11, 90, 82, 7, 9]).nodesList :=
  ⟨by decide, by decide,
    (C8_deepest_node_correct.1 (NewWithKeys [12, 11, 90, 82, 7, 9]) 0
      (by decide) (by decide)).1⟩

/-- C9: a freshly constructed empty wrapper returns zero from every
aggregate reader and not-found from both lookups, for every key. -/
theorem C9_empty_tree_defaults :
    LockingTree.Count NewLockingTree = 0 ∧
    LockingTree.CountLeft NewLockingTree = 0 ∧
    LockingTree.CountRight NewLockingTree = 0 ∧
    LockingTree.DepthMax NewLockingTree = 0 ∧
    LockingTree.DepthMaxLeft NewLockingTree = 0 ∧
    LockingTree.DepthMaxRight NewLockingTree = 0 ∧
    LockingTree.LowestKey NewLockingTree = 0 ∧
    LockingTree.HighestKey NewLockingTree = 0 ∧
    (∀ key : Nat, LockingTree.Get NewLockingTree key = none ∧
      LockingTree.GetRecurse NewLockingTree key = none) := by
  refine ⟨rfl, rfl, rfl, rfl, rfl, rfl, rfl, rfl, ?_⟩
  intro key
  exact ⟨rfl, rfl⟩

/-- C10: `NewWithKeys` on the empty key list does not return an empty
tree: it builds `New(0, nil)`, a single root node with key 0, value 0
(the nil value defaults to the key), depth 0 and side ROOT, so the tree
contains key 0 although no key was supplied. -/
theorem C10_new_with_keys_empty_list :
    NewWithKeys [] = Node.mk 0 (some 0) 0 NodeSide.root Node.nil Node.nil ∧
    (NewWithKeys []).keysb = [0] := by
  exact ⟨rfl, rfl⟩
